import Mathlib

set_option maxHeartbeats 1000000

namespace ConlLsp

/-! Shallow embedding of the conl-lsp language server.

Go strings are modelled as lists of unicode scalar values (`List Char`);
byte offsets are tracked explicitly through the UTF-8 width of each
scalar value, exactly as Go's `for ix, c := range s` loop does. -/

/-- Model of `lsp.Position` (lsp/structs.go): zero-based line and
zero-based UTF-16 code-unit offset within the line. -/
structure Position where
  line : Nat
  character : Nat
deriving DecidableEq, Repr

/-- Number of UTF-16 code units of a scalar value, as Go's
`utf16.RuneLen` returns for the runes produced by ranging over a valid
string. The `-1` result of the Go function only occurs for surrogate or
out-of-range values, which a `Char` (a unicode scalar value) cannot be. -/
def utf16RuneLen (c : Char) : Nat :=
  if 0x10000 ≤ c.toNat then 2 else 1

/-- Number of UTF-8 bytes of a scalar value: the amount by which the byte
index `ix` advances per iteration of a Go `range` loop over a string. -/
def utf8RuneLen (c : Char) : Nat :=
  if c.toNat < 0x80 then 1
  else if c.toNat < 0x800 then 2
  else if c.toNat < 0x10000 then 3
  else 4

/-- Byte length of a string (Go `len(s)`). -/
def utf8Len (s : List Char) : Nat := (s.map utf8RuneLen).sum

/-- UTF-16 code-unit length of a string, as `utf16Len` in server.go. -/
def utf16Len (s : List Char) : Nat := (s.map utf16RuneLen).sum

/-- Loop body of `TextDocument.resolve` (text_document.go lines 53-77).
`ix` is the byte offset of the current rune; on the target line one
UTF-16 width is consumed per code point, and a position one unit into a
two-unit code point is widened to one unit (the `delta = 1` fallback).
Both overshoot cases return the current offset (clamping), and falling
off the end returns `len(content)`. -/
def resolveLoop : List Char → Nat → Nat → Nat → Nat
  | [], ix, _, _ => ix
  | c :: rest, ix, line, char =>
    if line = 0 then
      if char = 0 then ix
      else if c = '\n' then ix
      else
        let d0 := utf16RuneLen c
        let d := if char = 1 ∧ d0 = 2 then 1 else d0
        resolveLoop rest (ix + utf8RuneLen c) 0 (char - d)
    else if c = '\n' then
      resolveLoop rest (ix + utf8RuneLen c) (line - 1) char
    else
      resolveLoop rest (ix + utf8RuneLen c) line char

/-- `TextDocument.resolve`: translate an LSP position to a byte offset. -/
def resolve (content : List Char) (p : Position) : Nat :=
  resolveLoop content 0 p.line p.character

/-- Loop of `TextDocument.unresolve` (text_document.go lines 79-95):
fold over the prefix, bumping the line at each newline and otherwise
accumulating UTF-16 widths. -/
def unresolveLoop : List Char → Position → Position
  | [], p => p
  | c :: rest, p =>
    if c = '\n' then unresolveLoop rest ⟨p.line + 1, 0⟩
    else unresolveLoop rest ⟨p.line, p.character + utf16RuneLen c⟩

/-- Go slice `s[:n]` for a byte offset `n`, meaningful on code-point
boundaries (the only offsets the round-trip claim ranges over). -/
def takeBytes : List Char → Nat → List Char
  | _, 0 => []
  | [], _ => []
  | c :: rest, n => c :: takeBytes rest (n - utf8RuneLen c)

/-- Go slice `s[n:]` for a byte offset `n` on a code-point boundary. -/
def dropBytes : List Char → Nat → List Char
  | s, 0 => s
  | [], _ => []
  | c :: rest, n => dropBytes rest (n - utf8RuneLen c)

/-- `TextDocument.unresolve`: translate a byte offset back to a position
by walking `content[:ix]`. -/
def unresolve (content : List Char) (ix : Nat) : Position :=
  unresolveLoop (takeBytes content ix) ⟨0, 0⟩

/-- A byte offset that lies on a code-point boundary within content
bounds: it is the byte length of some prefix of the content. -/
def IsBoundary (content : List Char) (ix : Nat) : Prop :=
  ∃ pre post, content = pre ++ post ∧ utf8Len pre = ix

/-- Model of `lsp.Range`. -/
structure Range where
  start : Position
  stop : Position
deriving DecidableEq, Repr

/-- Model of `lsp.TextDocumentContentChangeEvent`: an optional range and
the replacement text. -/
structure TextDocumentContentChangeEvent where
  range : Option Range
  text : List Char
deriving DecidableEq, Repr

/-- Replacement performed by the regular expression `\r\n?` → `\n`:
scanning left to right, a carriage return together with an immediately
following line feed, or a lone carriage return, becomes one line feed. -/
def normalizeCR : List Char → List Char
  | [] => []
  | '\r' :: '\n' :: rest => '\n' :: normalizeCR rest
  | '\r' :: rest => '\n' :: normalizeCR rest
  | c :: rest => c :: normalizeCR rest

/-- `normalizeNewlines` (text_document.go lines 21-26), including the
fast path that returns the string unchanged when it contains no `\r`. -/
def normalizeNewlines (s : List Char) : List Char :=
  if '\r' ∈ s then normalizeCR s else s

/-- `TextDocument.applyChange` (text_document.go lines 42-51): a change
without a range replaces the whole content with the normalized text; a
ranged change splices the normalized text between the resolved byte
offsets of the range ends. -/
def applyChange (content : List Char) (change : TextDocumentContentChangeEvent) :
    List Char :=
  let text := normalizeNewlines change.text
  match change.range with
  | none => text
  | some r =>
    let s := resolve content r.start
    let e := resolve content r.stop
    takeBytes content s ++ text ++ dropBytes content e

/-! Model of `getParentLine` (server.go lines 220-239). The Go loop is
`for lno >= 0 { if len(lines[lno]) < p { continue } ... ; lno -= 1 }`;
the `continue` skips the decrement, so the loop body is modelled with
explicit fuel: `none` means the given number of iterations did not reach
a `return`. -/

/-- Byte width of the leading run of spaces and tabs of a line (the `p`
computed at the top of `getParentLine`). -/
def leadingIndent : List Char → Nat
  | [] => 0
  | c :: rest => if c = ' ' ∨ c = '\t' then leadingIndent rest + 1 else 0

/-- Left trim of spaces and tabs (half of Go `strings.Trim(s, " \t")`). -/
def trimLeftST : List Char → List Char
  | [] => []
  | c :: rest => if c = ' ' ∨ c = '\t' then trimLeftST rest else c :: rest

/-- Go `strings.Trim(s, " \t")`: drop spaces and tabs from both ends. -/
def trimST (s : List Char) : List Char :=
  (trimLeftST (trimLeftST s.reverse).reverse)

/-- One Go loop iteration of `getParentLine`, fuel-indexed. `lines[lno]`
is read with byte length compared against `p`; a line shorter than `p`
hits the `continue` statement, which repeats the iteration with `lno`
unchanged. -/
def getParentLineLoop (lines : List (List Char)) (p : Nat) :
    Nat → Int → Option Int
  | 0, _ => none
  | fuel + 1, lno =>
    if 0 ≤ lno then
      let cur := lines.getD lno.toNat []
      if utf8Len cur < p then
        getParentLineLoop lines p fuel lno
      else
        let pfx := trimST (takeBytes cur p)
        if pfx ≠ [] ∧ pfx.head? ≠ some ';' then some lno
        else getParentLineLoop lines p fuel (lno - 1)
    else some lno

/-- `getParentLine` with an explicit iteration budget: `some r` is the
Go return value when the loop reaches a return within `fuel` iterations,
`none` when it does not. -/
def getParentLine (fuel : Nat) (lines : List (List Char)) (lno : Nat) :
    Option Int :=
  let line := lines.getD lno []
  let p := leadingIndent line
  getParentLineLoop lines p fuel ((lno : Int) - 1)

/-! Model of the JSON values carried by frames. Go's `json.RawMessage`
fields keep the raw bytes of a value; they are modelled as parsed values
whose serialization is the canonical compact form `json.Marshal` emits,
so "semantically equal" field comparison is value equality. Numbers keep
their decimal parts verbatim (the scanner never reinterprets digits). -/

/-- Decimal parts of a JSON number lexeme: sign, integer digits,
fractional digits (empty = no fraction), exponent sign and digits
(empty = no exponent). -/
structure NumLex where
  neg : Bool
  intPart : List Char
  fracPart : List Char
  expNeg : Bool
  expPart : List Char
deriving DecidableEq, Repr

/-- A JSON value: the shapes `encoding/json` distinguishes. Objects keep
their fields in order (Go assigns sequentially, last key wins). -/
inductive Json where
  | null : Json
  | bool : Bool → Json
  | num : NumLex → Json
  | str : List Char → Json
  | arr : List Json → Json
  | obj : List (List Char × Json) → Json
deriving Repr

/-- ASCII decimal digit test (`'0' <= c && c <= '9'`). -/
def isDigit (c : Char) : Bool :=
  '0'.toNat ≤ c.toNat && c.toNat ≤ '9'.toNat

/-- Lower-case hexadecimal digit for a value below 16, as Go's encoder
writes for `\u00xx` escapes. -/
def hexDigitChar (n : Nat) : Char :=
  if n < 10 then Char.ofNat ('0'.toNat + n) else Char.ofNat ('a'.toNat + n - 10)

/-- Escaping performed per character by `json.Marshal` on strings (with
the default HTML escaping): quote, backslash, the three named control
escapes, `\u00xx` for other control characters and for `<`, `>`, `&`,
and ` `/` `; everything else passes through. -/
def escapeChar (c : Char) : List Char :=
  if c = '"' then ['\\', '"']
  else if c = '\\' then ['\\', '\\']
  else if c = '\n' then ['\\', 'n']
  else if c = '\r' then ['\\', 'r']
  else if c = '\t' then ['\\', 't']
  else if c.toNat < 0x20 ∨ c = '<' ∨ c = '>' ∨ c = '&' then
    ['\\', 'u', '0', '0', hexDigitChar (c.toNat / 16), hexDigitChar (c.toNat % 16)]
  else if c.toNat = 0x2028 ∨ c.toNat = 0x2029 then
    ['\\', 'u', '2', '0', '2', hexDigitChar (c.toNat % 16)]
  else [c]

/-- Escaped body of a marshalled string. -/
def escapeStr (s : List Char) : List Char := (s.map escapeChar).flatten

/-- Canonical serialization of a number lexeme. -/
def serNum (m : NumLex) : List Char :=
  (if m.neg then ['-'] else []) ++ m.intPart
    ++ (if m.fracPart = [] then [] else '.' :: m.fracPart)
    ++ (if m.expPart = [] then []
        else 'e' :: ((if m.expNeg then ['-'] else []) ++ m.expPart))

mutual

/-- Compact serialization of a JSON value, as `json.Marshal` emits. -/
def serVal : Json → List Char
  | .null => ['n', 'u', 'l', 'l']
  | .bool b => if b then ['t', 'r', 'u', 'e'] else ['f', 'a', 'l', 's', 'e']
  | .num m => serNum m
  | .str s => '"' :: (escapeStr s ++ ['"'])
  | .arr es => '[' :: (serArrElems es ++ [']'])
  | .obj fs => '\x7b' :: (serObjFields fs ++ ['\x7d'])

/-- Comma-joined serialization of array elements. -/
def serArrElems : List Json → List Char
  | [] => []
  | [e] => serVal e
  | e :: e2 :: rest => serVal e ++ [','] ++ serArrElems (e2 :: rest)

/-- Comma-joined serialization of object fields (`"key":value`). -/
def serObjFields : List (List Char × Json) → List Char
  | [] => []
  | [(k, v)] => ('"' :: (escapeStr k ++ ['"', ':'])) ++ serVal v
  | (k, v) :: f2 :: rest =>
    ('"' :: (escapeStr k ++ ['"', ':'])) ++ serVal v ++ [','] ++
      serObjFields (f2 :: rest)

end

/-- JSON insignificant whitespace. -/
def isJsonWs (c : Char) : Bool := c = ' ' || c = '\t' || c = '\n' || c = '\r'

/-- Skip insignificant whitespace, as the scanner does between tokens. -/
def skipWs : List Char → List Char
  | [] => []
  | c :: rest => if isJsonWs c then skipWs rest else c :: rest

/-- Value of one hexadecimal digit (both cases), as `getu4` reads. -/
def hexVal (c : Char) : Option Nat :=
  if '0'.toNat ≤ c.toNat ∧ c.toNat ≤ '9'.toNat then some (c.toNat - '0'.toNat)
  else if 'a'.toNat ≤ c.toNat ∧ c.toNat ≤ 'f'.toNat then
    some (c.toNat - 'a'.toNat + 10)
  else if 'A'.toNat ≤ c.toNat ∧ c.toNat ≤ 'F'.toNat then
    some (c.toNat - 'A'.toNat + 10)
  else none

/-- Named escapes the decoder accepts after a backslash (besides `u`). -/
def escMap (e : Char) : Option Char :=
  if e = '"' then some '"'
  else if e = '\\' then some '\\'
  else if e = '/' then some '/'
  else if e = 'b' then some (Char.ofNat 0x8)
  else if e = 'f' then some (Char.ofNat 0xC)
  else if e = 'n' then some '\n'
  else if e = 'r' then some '\r'
  else if e = 't' then some '\t'
  else none

/-- Four hexadecimal digits after `\u`, as Go's `getu4`. -/
def parseHex4 : List Char → Option (Nat × List Char)
  | a :: b :: c :: d :: rest =>
    match hexVal a, hexVal b, hexVal c, hexVal d with
    | some va, some vb, some vc, some vd =>
      some (((va * 16 + vb) * 16 + vc) * 16 + vd, rest)
    | _, _, _, _ => none
  | _ => none

/-- A following `\uXXXX` escape, read when the previous one was a
surrogate. -/
def parseLowSurrogate : List Char → Option (Nat × List Char)
  | '\\' :: 'u' :: rest => parseHex4 rest
  | _ => none

/-- String-body decoder, after the opening quote: returns the decoded
content and the input after the closing quote. Mirrors `unquoteBytes`:
`\uXXXX` escapes combine surrogate pairs, an unpaired surrogate becomes
U+FFFD with only its own escape consumed, raw control characters are
rejected by the scanner, and a malformed escape fails. Each step decodes
one character and consumes at least one input character, so fuel of
input length + 1 never runs out. -/
def parseStrLoop : Nat → List Char → Option (List Char × List Char)
  | 0, _ => none
  | fuel + 1, s =>
    match s with
    | [] => none
    | c :: rest =>
      if c = '"' then some ([], rest)
      else if c = '\\' then
        match rest with
        | [] => none
        | e :: rest2 =>
          if e = 'u' then
            match parseHex4 rest2 with
            | none => none
            | some (h, rest3) =>
              if 0xD800 ≤ h ∧ h < 0xE000 then
                match parseLowSurrogate rest3 with
                | some (l, rest5) =>
                  if 0xD800 ≤ h ∧ h < 0xDC00 ∧ 0xDC00 ≤ l ∧ l < 0xE000 then
                    (parseStrLoop fuel rest5).map (fun p =>
                      (Char.ofNat (0x10000 + (h - 0xD800) * 0x400 + (l - 0xDC00))
                          :: p.1,
                        p.2))
                  else
                    (parseStrLoop fuel rest3).map (fun p =>
                      (Char.ofNat 0xFFFD :: p.1, p.2))
                | none =>
                  (parseStrLoop fuel rest3).map (fun p =>
                    (Char.ofNat 0xFFFD :: p.1, p.2))
              else
                (parseStrLoop fuel rest3).map (fun p => (Char.ofNat h :: p.1, p.2))
          else
            match escMap e with
            | some ec => (parseStrLoop fuel rest2).map (fun p => (ec :: p.1, p.2))
            | none => none
      else if c.toNat < 0x20 then none
      else (parseStrLoop fuel rest).map (fun p => (c :: p.1, p.2))

/-- Leading run of decimal digits and the rest. -/
def digits : List Char → List Char × List Char
  | [] => ([], [])
  | c :: rest =>
    if isDigit c then
      let p := digits rest
      (c :: p.1, p.2)
    else ([], c :: rest)

/-- Optional exponent sign: `-` negates, `+` is accepted and dropped. -/
def expSign : List Char → Bool × List Char
  | '+' :: rr => (false, rr)
  | '-' :: rr => (true, rr)
  | r => (false, r)

/-- Optional leading minus of the whole number. -/
def negSign : List Char → Bool × List Char
  | '-' :: r => (true, r)
  | s => (false, s)

/-- Exponent-and-done tail of the number grammar. -/
def afterFrac (neg : Bool) (ip fp : List Char) :
    List Char → Option (NumLex × List Char)
  | [] => some (⟨neg, ip, fp, false, []⟩, [])
  | c :: r =>
    if c = 'e' ∨ c = 'E' then
      let p := expSign r
      let d := digits p.2
      if d.1 = [] then none else some (⟨neg, ip, fp, p.1, d.1⟩, d.2)
    else some (⟨neg, ip, fp, false, []⟩, c :: r)

/-- Fraction tail of the number grammar. -/
def afterInt (neg : Bool) (ip : List Char) :
    List Char → Option (NumLex × List Char)
  | '.' :: r =>
    let d := digits r
    if d.1 = [] then none else afterFrac neg ip d.1 d.2
  | s => afterFrac neg ip [] s

/-- The scanner's number grammar: `-? (0 | [1-9][0-9]*) frac? exp?`. -/
def parseNum (s : List Char) : Option (NumLex × List Char) :=
  let p := negSign s
  match p.2 with
  | [] => none
  | c :: r1 =>
    if c = '0' then afterInt p.1 ['0'] r1
    else if isDigit c then
      let d := digits r1
      afterInt p.1 (c :: d.1) d.2
    else none

mutual

/-- Fuel-indexed JSON value parser modelling `encoding/json`'s scan of a
single value: leading whitespace, then a literal, string, number, array
or object. The fuel only bounds nesting-driven recursion; every caller
passes enough for any parseable input. -/
def parseVal : Nat → List Char → Option (Json × List Char)
  | 0, _ => none
  | fuel + 1, s =>
    match skipWs s with
    | [] => none
    | c :: rest =>
      if c = 'n' then
        match rest with
        | 'u' :: 'l' :: 'l' :: r => some (.null, r)
        | _ => none
      else if c = 't' then
        match rest with
        | 'r' :: 'u' :: 'e' :: r => some (.bool true, r)
        | _ => none
      else if c = 'f' then
        match rest with
        | 'a' :: 'l' :: 's' :: 'e' :: r => some (.bool false, r)
        | _ => none
      else if c = '"' then
        (parseStrLoop (rest.length + 1) rest).map (fun p => (.str p.1, p.2))
      else if c = '-' ∨ isDigit c then
        (parseNum (c :: rest)).map (fun p => (.num p.1, p.2))
      else if c = '[' then
        let r1 := skipWs rest
        if r1.head? = some ']' then some (.arr [], r1.tail)
        else (parseElems fuel r1).map (fun p => (.arr p.1, p.2))
      else if c = '\x7b' then
        let r1 := skipWs rest
        if r1.head? = some '\x7d' then some (.obj [], r1.tail)
        else (parseFields fuel r1).map (fun p => (.obj p.1, p.2))
      else none

/-- Elements of a non-empty array: value, then `,` and more elements or
the closing bracket. -/
def parseElems : Nat → List Char → Option (List Json × List Char)
  | 0, _ => none
  | fuel + 1, s =>
    (parseVal fuel s).bind (fun vp =>
      let r1 := skipWs vp.2
      if r1.head? = some ',' then
        (parseElems fuel r1.tail).map (fun p => (vp.1 :: p.1, p.2))
      else if r1.head? = some ']' then some ([vp.1], r1.tail)
      else none)

/-- Fields of a non-empty object: quoted key, `:`, value, then `,` and
more fields or the closing brace. -/
def parseFields : Nat → List Char → Option (List (List Char × Json) × List Char)
  | 0, _ => none
  | fuel + 1, s =>
    let s1 := skipWs s
    if s1.head? = some '"' then
      (parseStrLoop (s1.tail.length + 1) s1.tail).bind (fun kp =>
        let r3 := skipWs kp.2
        if r3.head? = some ':' then
          (parseVal fuel r3.tail).bind (fun vp =>
            let r5 := skipWs vp.2
            if r5.head? = some ',' then
              (parseFields fuel r5.tail).map (fun p => ((kp.1, vp.1) :: p.1, p.2))
            else if r5.head? = some '\x7d' then some ([(kp.1, vp.1)], r5.tail)
            else none)
        else none)
    else none

end

/-- One full `json.Unmarshal` of a value: a single value followed only
by whitespace. The fuel `2 * length + 2` exceeds the parser's worst
consumption (at least one input character per recursion layer). -/
def unmarshalJson (s : List Char) : Option Json :=
  match parseVal (2 * s.length + 2) s with
  | some (v, r) => if skipWs r = [] then some v else none
  | none => none

/-- Well-formed number lexeme per the scanner's grammar: integer part
`0` or `[1-9][0-9]*`, digit-only fraction and exponent, a negative
exponent sign only together with exponent digits. -/
def NumWF (m : NumLex) : Prop :=
  (m.intPart = ['0'] ∨
    ∃ c t, m.intPart = c :: t ∧ '1'.toNat ≤ c.toNat ∧ c.toNat ≤ '9'.toNat ∧
      ∀ x ∈ t, isDigit x = true) ∧
  (∀ x ∈ m.fracPart, isDigit x = true) ∧
  (∀ x ∈ m.expPart, isDigit x = true) ∧
  (m.expNeg = true → m.expPart ≠ [])

mutual

/-- Well-formed JSON value: every number lexeme obeys the grammar. -/
def WFJson : Json → Prop
  | .null => True
  | .bool _ => True
  | .num m => NumWF m
  | .str _ => True
  | .arr es => WFJsonList es
  | .obj fs => WFJsonFields fs

/-- Well-formedness of every element of an array. -/
def WFJsonList : List Json → Prop
  | [] => True
  | e :: es => WFJson e ∧ WFJsonList es

/-- Well-formedness of every field value of an object. -/
def WFJsonFields : List (List Char × Json) → Prop
  | [] => True
  | f :: fs => WFJson f.2 ∧ WFJsonFields fs

end

mutual

/-- Fuel lower bound sufficient for `parseVal` on a serialized value. -/
def jsize : Json → Nat
  | .null => 1
  | .bool _ => 1
  | .num _ => 1
  | .str _ => 1
  | .arr es => 1 + lsize es
  | .obj fs => 1 + fsize fs

/-- Fuel lower bound for `parseElems` on serialized elements. -/
def lsize : List Json → Nat
  | [] => 1
  | e :: es => 1 + jsize e + lsize es

/-- Fuel lower bound for `parseFields` on serialized fields. -/
def fsize : List (List Char × Json) → Nat
  | [] => 1
  | f :: fs => 1 + jsize f.2 + fsize fs

end

/-- Characters that may legitimately follow a serialized value inside a
larger serialization. -/
def StopChar (c : Char) : Prop := c = ',' ∨ c = ']' ∨ c = '\x7d'

/-- The rest of the input after a serialized value: empty or starting
with a separator/closer, so that number lexemes cannot be extended. -/
def StopOk (r : List Char) : Prop :=
  r = [] ∨ ∃ c t, r = c :: t ∧ StopChar c

/-! Model of the frame layer (lsp/frames.go): `WriteFrames` emits a
`Content-Length` header block plus the marshalled frame, `ReadFrames`
reads header lines, the payload, and unmarshals it. -/

/-- Model of `lsp.RpcError` (code plus human message). -/
structure RpcError where
  code : Int
  message : List Char
deriving DecidableEq, Repr

/-- One non-batch `lsp.Frame`. The `json.RawMessage` fields (`Id`,
`Params`, `Result`) hold a JSON value when present; `none` is the nil
raw message (field absent — an explicit JSON `null` is `some .null`).
An empty `Method` is omitted by `omitempty` exactly like a missing one. -/
structure SingleFrame where
  jsonrpc : List Char
  id : Option Json
  method : List Char
  params : Option Json
  result : Option Json
  error : Option RpcError
deriving Repr

/-- A decoded frame: a single frame, or a batch (payload began with
`[`); batch elements unmarshal into `[]*Frame`, where a JSON `null`
element leaves a nil pointer. -/
inductive Frame where
  | single (f : SingleFrame)
  | batch (fs : List (Option SingleFrame))
deriving Repr

/-- The zero `Frame` value (what unmarshalling `null` leaves behind and
what `Marshal` sees of a batch frame, whose `Batch` field is `json:"-"`). -/
def emptyFrame : SingleFrame := ⟨[], none, [], none, none, none⟩

def jsonrpcKey : List Char := ['j', 's', 'o', 'n', 'r', 'p', 'c']
def idKey : List Char := ['i', 'd']
def methodKey : List Char := ['m', 'e', 't', 'h', 'o', 'd']
def paramsKey : List Char := ['p', 'a', 'r', 'a', 'm', 's']
def resultKey : List Char := ['r', 'e', 's', 'u', 'l', 't']
def errorKey : List Char := ['e', 'r', 'r', 'o', 'r']
def codeKey : List Char := ['c', 'o', 'd', 'e']
def messageKey : List Char := ['m', 'e', 's', 's', 'a', 'g', 'e']

/-- Decimal digit character. -/
def digitChar (n : Nat) : Char := Char.ofNat ('0'.toNat + n)

/-- Accumulator loop for decimal printing, fuel-indexed so that it
reduces definitionally; `n` itself always bounds the digit count. -/
def natDigitsAux : Nat → Nat → List Char → List Char
  | 0, n, acc => digitChar n :: acc
  | fuel + 1, n, acc =>
    if n < 10 then digitChar n :: acc
    else natDigitsAux fuel (n / 10) (digitChar (n % 10) :: acc)

/-- Decimal digits of a natural number (`fmt.Sprintf("%d", n)` and the
integer lexemes `json.Marshal` emits). -/
def natDigits (n : Nat) : List Char := natDigitsAux n n []

/-- Recursive form of decimal printing, for reasoning. -/
def natDigitsW (n : Nat) : List Char :=
  if h : n < 10 then [digitChar n]
  else natDigitsW (n / 10) ++ [digitChar (n % 10)]
decreasing_by exact Nat.div_lt_self (by omega) (by omega)

/-- Number lexeme of a Go `int` as `json.Marshal` writes it. -/
def numLexOfInt (i : Int) : NumLex :=
  ⟨i < 0, natDigits i.natAbs, [], false, []⟩

/-- Value of a decimal digit string. -/
def digitsToNat (s : List Char) : Nat :=
  s.foldl (fun a c => a * 10 + (c.toNat - '0'.toNat)) 0

/-- Marshal of an optional `RawMessage` struct field with `omitempty`. -/
def optField (k : List Char) : Option Json → List (List Char × Json)
  | none => []
  | some j => [(k, j)]

/-- `json.Marshal` of `*RpcError`: `code` then `message`. -/
def marshalRpcError (e : RpcError) : Json :=
  Json.obj [(codeKey, Json.num (numLexOfInt e.code)),
    (messageKey, Json.str e.message)]

/-- The object fields `json.Marshal` emits for a `Frame` struct value,
in declaration order, `omitempty` dropping empty raw messages, the
empty method and a nil error. -/
def frameFields (f : SingleFrame) : List (List Char × Json) :=
  [(jsonrpcKey, Json.str f.jsonrpc)] ++
    optField idKey f.id ++
    (if f.method = [] then [] else [(methodKey, Json.str f.method)]) ++
    optField paramsKey f.params ++
    optField resultKey f.result ++
    (match f.error with
     | none => []
     | some e => [(errorKey, marshalRpcError e)])

/-- `json.Marshal` of a `Frame` struct value. -/
def marshalFrame (f : SingleFrame) : Json := Json.obj (frameFields f)

/-- A frame whose raw-message fields, when present, hold well-formed
JSON (which `json.Unmarshal` guarantees for frames that were ever
decoded, and the server's own replies satisfy by construction). -/
def WFFrame (f : SingleFrame) : Prop :=
  (∀ j, f.id = some j → WFJson j) ∧
  (∀ j, f.params = some j → WFJson j) ∧
  (∀ j, f.result = some j → WFJson j)

/-- Sequential field assignment of `json.Unmarshal` into a struct: the
last occurrence of a key wins. Go also matches field names
case-insensitively as a fallback; every input in scope uses the exact
lower-case key, where the two coincide. -/
def lookupField (fields : List (List Char × Json)) (k : List Char) :
    Option Json :=
  fields.foldl (fun acc f => if f.1 = k then some f.2 else acc) none

/-- Unmarshal of a string struct field: absent or `null` leaves the zero
value, a string assigns, any other shape is a type error (`none`). -/
def getStrField (fields : List (List Char × Json)) (k : List Char) :
    Option (List Char) :=
  match lookupField fields k with
  | none => some []
  | some Json.null => some []
  | some (Json.str s) => some s
  | some _ => none

/-- Unmarshal of a `json.RawMessage` field: keeps the raw value; absent
stays nil. -/
def getRawField (fields : List (List Char × Json)) (k : List Char) :
    Option Json :=
  lookupField fields k

/-- Integer value of a number lexeme, as `ParseInt` accepts it (no
fraction, no exponent). -/
def intOfNumLex (m : NumLex) : Option Int :=
  if m.fracPart = [] ∧ m.expPart = [] then
    some ((if m.neg then -1 else 1) * (digitsToNat m.intPart : Int))
  else none

/-- Unmarshal of an `int` struct field. -/
def getIntField (fields : List (List Char × Json)) (k : List Char) :
    Option Int :=
  match lookupField fields k with
  | none => some 0
  | some Json.null => some 0
  | some (Json.num m) => intOfNumLex m
  | some _ => none

/-- Unmarshal of the `*RpcError` field: absent or `null` leaves nil,
an object fills the pointer, anything else is a type error. -/
def getErrField (fields : List (List Char × Json)) :
    Option (Option RpcError) :=
  match lookupField fields errorKey with
  | none => some none
  | some Json.null => some none
  | some (Json.obj efs) =>
    match getIntField efs codeKey, getStrField efs messageKey with
    | some c, some m => some (some ⟨c, m⟩)
    | _, _ => none
  | some _ => none

/-- `json.Unmarshal(buf, &frame)` for a single frame: the payload must
be an object (or `null`, leaving the zero frame). -/
def frameOfJson : Json → Option SingleFrame
  | Json.null => some emptyFrame
  | Json.obj fs =>
    match getStrField fs jsonrpcKey, getStrField fs methodKey,
        getErrField fs with
    | some jr, some me, some er =>
      some ⟨jr, getRawField fs idKey, me, getRawField fs paramsKey,
        getRawField fs resultKey, er⟩
    | _, _, _ => none
  | _ => none

/-- One element of `json.Unmarshal(buf, &[]*Frame)`: `null` leaves a
nil pointer, an object unmarshals a frame. -/
def batchElemOfJson : Json → Option (Option SingleFrame)
  | Json.null => some none
  | Json.obj fs => (frameOfJson (Json.obj fs)).map some
  | _ => none

/-- `json.Unmarshal` of a batch payload into `[]*Frame`. -/
def batchOfJson : Json → Option (List (Option SingleFrame))
  | Json.arr es => go es
  | _ => none
where go : List Json → Option (List (Option SingleFrame))
  | [] => some []
  | e :: es =>
    match batchElemOfJson e, go es with
    | some f, some fs => some (f :: fs)
    | _, _ => none

/-- The `frame`/`frames` unmarshal step of `ReadFrames`: a payload
beginning with `[` is a batch, anything else a single frame. -/
def decodeFrameBytes (buf : List Char) : Option Frame :=
  if buf.head? = some '[' then
    (unmarshalJson buf).bind (fun j => (batchOfJson j).map Frame.batch)
  else
    (unmarshalJson buf).bind (fun j => (frameOfJson j).map Frame.single)

/-- The payload `json.Marshal(frame)` produces (`Batch` is `json:"-"`,
so marshalling a batch frame emits only the zero single-frame fields). -/
def marshalGoFrame : Frame → Json
  | .single f => marshalFrame f
  | .batch _ => marshalFrame emptyFrame

/-- One send of `WriteFrames`: `Content-Length: <n>\r\n\r\n` followed by
the marshalled payload, `n` its byte length. -/
def writeFrame (f : Frame) : List Char :=
  let msg := serVal (marshalGoFrame f)
  ['C', 'o', 'n', 't', 'e', 'n', 't', '-', 'L', 'e', 'n', 'g', 't', 'h',
    ':', ' '] ++ natDigits (utf8Len msg) ++ ['\r', '\n', '\r', '\n'] ++ msg

/-- `bufio.ReadString('\n')`: the line including `\n`, or `none` at EOF
(Go also returns the partial data, which `ReadFrames` discards). -/
def readLine : List Char → Option (List Char × List Char)
  | [] => none
  | c :: rest =>
    if c = '\n' then some ([c], rest)
    else (readLine rest).map (fun p => (c :: p.1, p.2))

/-- Whitespace trimmed by Go `strings.TrimSpace` (the ASCII cases; the
rare unicode spaces never occur in the inputs in scope). -/
def isSpaceGo (c : Char) : Bool :=
  c = ' ' || c = '\t' || c = '\n' || c = '\x0b' || c = '\x0c' || c = '\r'

def trimLeftSpace : List Char → List Char
  | [] => []
  | c :: rest => if isSpaceGo c then trimLeftSpace rest else c :: rest

/-- `strings.TrimSpace`. -/
def trimSpace (s : List Char) : List Char :=
  (trimLeftSpace (trimLeftSpace s.reverse).reverse)

/-- ASCII case of `strings.ToLower` (header names here are ASCII). -/
def asciiToLower (c : Char) : Char :=
  if 'A'.toNat ≤ c.toNat ∧ c.toNat ≤ 'Z'.toNat then Char.ofNat (c.toNat + 32)
  else c

def toLower (s : List Char) : List Char := s.map asciiToLower

/-- `strings.Cut(line, ":")`. -/
def cutColon : List Char → Option (List Char × List Char)
  | [] => none
  | c :: rest =>
    if c = ':' then some ([], rest)
    else (cutColon rest).map (fun p => (c :: p.1, p.2))

/-- Write into the headers map (unique keys, overwrite on repeat). -/
def insertHeader (hs : List (List Char × List Char)) (k v : List Char) :
    List (List Char × List Char) :=
  if (hs.find? (fun p => p.1 = k)).isSome then
    hs.map (fun p => if p.1 = k then (k, v) else p)
  else hs ++ [(k, v)]

def lookupHeader (hs : List (List Char × List Char)) (k : List Char) :
    Option (List Char) :=
  (hs.find? (fun p => p.1 = k)).map Prod.snd

/-- A stream made of complete `\n`-terminated lines followed by a
(possibly empty) unterminated tail — the shape of any prefix of a
header block that ends at EOF. -/
def joinLines (ls : List (List Char)) (t : List Char) : List Char :=
  ls.foldr (fun l acc => l ++ '\n' :: acc) t

def contentLengthKey : List Char :=
  ['c', 'o', 'n', 't', 'e', 'n', 't', '-', 'l', 'e', 'n', 'g', 't', 'h']

/-- `strconv.Atoi`: optional sign then at least one digit (the overflow
bound of a 64-bit int is not modelled; lengths in scope are small). -/
def atoi (s : List Char) : Option Int :=
  let p : Bool × List Char :=
    match s with
    | '+' :: r => (false, r)
    | '-' :: r => (true, r)
    | r => (false, r)
  if p.2 ≠ [] ∧ p.2.all isDigit then
    some ((if p.1 then -1 else 1) * (digitsToNat p.2 : Int))
  else none

/-- Outcome of the header loop of `ReadFrames`: clean EOF (no header
line read for this frame), unexpected EOF (at least one), or the blank
line reached with the headers map and whether some line had no colon
(`frameErr` was set). -/
inductive HeaderResult where
  | eofClean
  | eofUnexpected
  | done (hs : List (List Char × List Char)) (badLine : Bool) (rest : List Char)
deriving Repr

/-- The header loop (`ReadFrames` lines 88-108), fuel-indexed. Each
iteration consumes at least one character, so fuel of input length + 1
never runs out and the fuel-exhausted value is unreachable. -/
def headerLoopF : Nat → List (List Char × List Char) → Bool → List Char →
    HeaderResult
  | 0, _, _, _ => .eofUnexpected
  | fuel + 1, hs, bad, s =>
    match readLine s with
    | none => if hs.length > 0 then .eofUnexpected else .eofClean
    | some (line, rest) =>
      if trimSpace line = [] ∧ hs.length > 0 then .done hs bad rest
      else
        match cutColon line with
        | some kv =>
          headerLoopF fuel
            (insertHeader hs (trimSpace (toLower kv.1)) (trimSpace kv.2))
            bad rest
        | none =>
          headerLoopF fuel
            (insertHeader hs (trimSpace (toLower line)) (trimSpace []))
            true rest

/-- `io.ReadFull(br, buf)` with `len(buf) = n`: the first `n` bytes and
the remainder, or `none` when the input is exhausted first (`EOF` and
`ErrUnexpectedEOF` are both mapped to unexpected EOF by the caller). A
count landing inside a multi-byte code point (impossible for the framed
payloads in scope) consumes that whole code point. -/
def readFullBytes : List Char → Nat → Option (List Char × List Char)
  | s, 0 => some ([], s)
  | [], _ + 1 => none
  | c :: rest, n + 1 =>
    (readFullBytes rest (n + 1 - utf8RuneLen c)).map (fun p => (c :: p.1, p.2))

/-- Errors `ReadFrames` can yield. -/
inductive ReadErr where
  | unexpectedEOF
  | invalidContentLength
  | jsonErr
deriving DecidableEq, Repr

/-- One yielded element of the `ReadFrames` sequence. -/
inductive FrameEvent where
  | frame (f : Frame)
  | err (e : ReadErr)
deriving Repr

/-- How the sequence ended: normally, or in a panic. The `frameErr`
branch calls `FrameLogger` with `err.Error()` while `err` is nil when a
header line lacked a colon but the content-length was valid; and a
negative Content-Length panics in `make([]byte, n)`. -/
inductive ReadEnd where
  | clean
  | crashed
deriving DecidableEq, Repr

/-- One outer iteration of `ReadFrames` per unit of fuel (each frame
consumes at least one input character, so length + 1 units suffice). -/
def readFramesF : Nat → List Char → List FrameEvent × ReadEnd
  | 0, _ => ([], .clean)
  | fuel + 1, s =>
    match headerLoopF (s.length + 1) [] false s with
    | .eofClean => ([], .clean)
    | .eofUnexpected => ([.err .unexpectedEOF], .clean)
    | .done hs badLine rest =>
      match atoi (trimSpace ((lookupHeader hs contentLengthKey).getD [])) with
      | none => ([.err .invalidContentLength], .clean)
      | some n =>
        if badLine then ([], .crashed)
        else if n < 0 then ([], .crashed)
        else
          match readFullBytes rest n.toNat with
          | none => ([.err .unexpectedEOF], .clean)
          | some (buf, rest2) =>
            match decodeFrameBytes buf with
            | none => ([.err .jsonErr], .clean)
            | some fr =>
              let p := readFramesF fuel rest2
              (.frame fr :: p.1, p.2)

/-- The `ReadFrames` sequence over a whole input, with a consumer that
never stops early (as `Connection.Serve`'s loop). -/
def readFrames (s : List Char) : List FrameEvent × ReadEnd :=
  readFramesF (s.length + 1) s

/-! Model of `Connection.handleFrame` (lsp/connection.go lines 135-178)
and `respond`/`respondError` (lines 180-208). Handlers are abstract: a
kind, whether `json.Unmarshal` into the registered parameter type
succeeds, and the request handler's outcome. Outbound replies keep the
correlation id and the error code; the human message text is not
modelled. -/

def EParseError : Int := -32700
def EInvalidRequest : Int := -32600
def EMethodNotFound : Int := -32601
def EInvalidParams : Int := -32602
def EInternalError : Int := -32603

inductive HandlerKind where
  | notification
  | request
deriving DecidableEq, Repr

/-- A registered handler: its kind, its parameter decode (the
`json.Unmarshal(recv.Params, param.Interface())` outcome on a present
raw value — a nil raw message always fails), and the request body. -/
structure HandlerSpec where
  kind : HandlerKind
  decode : Json → Bool
  run : Json → Except (List Char) Json

/-- An outbound response frame: success with a result, or a failure with
a JSON-RPC code. The id is always present — `respondError` returns
without sending when the id is nil. -/
inductive OutMsg where
  | success (id : Json) (result : Json)
  | failure (id : Json) (code : Int)
deriving Repr

/-- `Connection.respondError`: a nil id suppresses the reply entirely. -/
def respondError (id : Option Json) (code : Int) : List OutMsg :=
  match id with
  | none => []
  | some i => [.failure i code]

/-- The `recv` struct the connection unmarshals each frame into. -/
structure Recv where
  jsonrpc : List Char
  method : List Char
  params : Option Json
  result : Option Json
  id : Option Json
deriving Repr

/-- `json.Unmarshal(msg, &recv)`: top level must be an object (or
`null`), string fields must be strings, the `error` field must fit
`*rpcError`, raw fields keep their value. -/
def recvOfJson : Json → Option Recv
  | Json.null => some ⟨[], [], none, none, none⟩
  | Json.obj fs =>
    match getStrField fs jsonrpcKey, getStrField fs methodKey,
        getErrField fs with
    | some jr, some me, some _ =>
      some ⟨jr, me, getRawField fs paramsKey, getRawField fs resultKey,
        getRawField fs idKey⟩
    | _, _, _ => none
  | _ => none

def unmarshalRecv (msg : List Char) : Option Recv :=
  (unmarshalJson msg).bind recvOfJson

def lookupHandler (handlers : List (List Char × HandlerSpec))
    (method : List Char) : Option HandlerSpec :=
  (handlers.find? (fun p => p.1 = method)).map Prod.snd

/-- `Connection.handleFrame` on one raw inbound payload: the list of
responses sent to the outbound channel and the list of handler
invocations `(method, decoded params)` performed. -/
def handleFrame (handlers : List (List Char × HandlerSpec))
    (msg : List Char) : List OutMsg × List (List Char × Json) :=
  if msg.head? = some '[' then
    (respondError none EParseError, [])
  else
    match unmarshalRecv msg with
    | none => (respondError none EParseError, [])
    | some recv =>
      match lookupHandler handlers recv.method with
      | none => (respondError recv.id EMethodNotFound, [])
      | some h =>
        match recv.params with
        | none => (respondError recv.id EInvalidParams, [])
        | some pj =>
          if h.decode pj = false then
            (respondError recv.id EInvalidParams, [])
          else
            match h.kind with
            | .notification =>
              ((if recv.id.isSome then respondError recv.id EInvalidRequest
                else []),
                [(recv.method, pj)])
            | .request =>
              match recv.id with
              | none => ([], [])
              | some i =>
                match h.run pj with
                | .error _ => ([.failure i EInternalError], [(recv.method, pj)])
                | .ok res => ([.success i res], [(recv.method, pj)])

/-! Model of `Server.loadSchema` (server.go lines 294-350). External
collaborators — URL resolution, schema parsing, file reads and the whole
`loadHTTPSchema` network call — are oracles; schemas and errors are
opaque handles. The returned effect list records the URLs fetched over
the network. -/

/-- A remote cache entry (`httpSchema`): a parsed schema or the fetch's
error. -/
structure HttpSchemaEntry where
  schema : Option Nat
  err : Option Nat
deriving DecidableEq, Repr

/-- What `loadSchema` returns: the accept-anything schema, a parsed
schema handle, or an error (`none` for errors whose value the model
does not track, such as an unresolvable reference). -/
inductive LoadResult where
  | anySchema
  | parsed (s : Nat)
  | failed (e : Option Nat)
deriving DecidableEq, Repr

/-- External collaborators of the resolver. -/
structure SchemaOracles where
  resolveReference : String → String → Option String
  parse : String → Except Nat Nat
  readFile : String → Except Nat String
  urlScheme : String → String
  urlPath : String → String
  fetch : String → Except Nat Nat

/-- The server's shared maps (`openDocs` keyed by URI holding content,
`schemasInUse`, `httpSchemas`). -/
structure ServerState where
  openDocs : List (String × String)
  schemasInUse : List (String × String)
  httpSchemas : List (String × HttpSchemaEntry)
deriving Repr

def lookupAssoc {β : Type} (l : List (String × β)) (k : String) : Option β :=
  (l.find? (fun p => p.1 = k)).map Prod.snd

def insertAssoc {β : Type} (l : List (String × β)) (k : String) (v : β) :
    List (String × β) :=
  if (l.find? (fun p => p.1 = k)).isSome then
    l.map (fun p => if p.1 = k then (k, v) else p)
  else l ++ [(k, v)]

def eraseKey {β : Type} (l : List (String × β)) (k : String) :
    List (String × β) :=
  l.filter (fun p => ¬(p.1 = k))

def resultOfParse : Except Nat Nat → LoadResult
  | .ok s => .parsed s
  | .error e => .failed (some e)

/-- The cache entry stored after a fetch (`httpSchema{schema, err}`). -/
def entryOf : Except Nat Nat → HttpSchemaEntry
  | .ok s => ⟨some s, none⟩
  | .error e => ⟨none, some e⟩

/-- `Server.loadSchema`: returns the result, the state after the call,
and the list of network fetches performed. -/
def loadSchema (O : SchemaOracles) (st : ServerState)
    (docUrl requested : String) : LoadResult × ServerState × List String :=
  if requested = "" then
    (.anySchema, { st with schemasInUse := eraseKey st.schemasInUse docUrl },
      [])
  else
    match O.resolveReference docUrl requested with
    | none =>
      (.failed none, { st with schemasInUse := eraseKey st.schemasInUse docUrl },
        [])
    | some schemaUrl =>
      let shouldLoad := (lookupAssoc st.schemasInUse docUrl).getD "" ≠ schemaUrl
      let st1 := { st with
        schemasInUse := insertAssoc st.schemasInUse docUrl schemaUrl }
      match lookupAssoc st1.openDocs schemaUrl with
      | some content => (resultOfParse (O.parse content), st1, [])
      | none =>
        if O.urlScheme schemaUrl = "file" then
          match O.readFile (O.urlPath schemaUrl) with
          | .error e => (.failed (some e), st1, [])
          | .ok bytes => (resultOfParse (O.parse bytes), st1, [])
        else if O.urlScheme schemaUrl = "https" ∨ O.urlScheme schemaUrl = "http"
        then
          let fetchStore : LoadResult × ServerState × List String :=
            let r := O.fetch schemaUrl
            ((match r with
              | .ok s => .parsed s
              | .error e => .failed (some e)),
              { st1 with
                httpSchemas := insertAssoc st1.httpSchemas schemaUrl
                  (entryOf r) },
              [schemaUrl])
          match lookupAssoc st1.httpSchemas schemaUrl with
          | some cached =>
            match cached.schema with
            | some s => (.parsed s, st1, [])
            | none =>
              if ¬shouldLoad then (.failed cached.err, st1, [])
              else fetchStore
          | none => fetchStore
        else (.failed none, st1, [])

/-! Interleaving model for two concurrent `loadSchema` calls in the
remote branch (server.go lines 328-348), for two different documents
resolving the same uncached URL (`shouldLoad` true for both). The mutex
covers the cache read and the cache write separately; the network fetch
runs between them without the lock. One atomic action per locked
section or fetch. -/

/-- Shared state of the interleaving model: the cache entry for the one
URL in play, and how many network fetches have run. -/
structure C4Shared where
  cache : Option HttpSchemaEntry
  fetchCount : Nat
deriving DecidableEq, Repr

/-- Program counter of one resolving thread through the http branch. -/
inductive C4Pc where
  | checkCache
  | doFetch
  | store (r : Except Nat Nat)
  | finished (res : LoadResult)
deriving Repr

/-- One atomic step of a thread: the locked cache read plus its local
decision, the unlocked fetch, or the locked cache write plus return. -/
def c4Step (fetchResult : Except Nat Nat) (shouldLoad : Bool) :
    C4Shared × C4Pc → C4Shared × C4Pc
  | (sh, .checkCache) =>
    match sh.cache with
    | some e =>
      match e.schema with
      | some s => (sh, .finished (.parsed s))
      | none =>
        if shouldLoad then (sh, .doFetch) else (sh, .finished (.failed e.err))
    | none => (sh, .doFetch)
  | (sh, .doFetch) =>
    ({ sh with fetchCount := sh.fetchCount + 1 }, .store fetchResult)
  | (sh, .store r) =>
    ({ sh with cache := some (entryOf r) },
      .finished (match r with
        | .ok s => .parsed s
        | .error e => .failed (some e)))
  | (sh, pc) => (sh, pc)

/-- A scheduler step: `true` runs thread one, `false` thread two. -/
def c4RunStep (fr1 fr2 : Except Nat Nat)
    (st : C4Shared × C4Pc × C4Pc) (who : Bool) : C4Shared × C4Pc × C4Pc :=
  if who then
    let p := c4Step fr1 true (st.1, st.2.1)
    (p.1, p.2, st.2.2)
  else
    let p := c4Step fr2 true (st.1, st.2.2)
    (p.1, st.2.1, p.2)

/-- Run a finite schedule from a state. -/
def c4Run (fr1 fr2 : Except Nat Nat) (sched : List Bool)
    (init : C4Shared × C4Pc × C4Pc) : C4Shared × C4Pc × C4Pc :=
  sched.foldl (c4RunStep fr1 fr2) init

/-- Both threads at the cache check, nothing cached, no fetch yet. -/
def c4Init : C4Shared × C4Pc × C4Pc := (⟨none, 0⟩, .checkCache, .checkCache)

/-- How many more fetches a thread at this program point can still
start (each thread passes `doFetch` at most once). -/
def c4Budget : C4Pc → Nat
  | .checkCache => 1
  | .doFetch => 1
  | .store _ => 0
  | .finished _ => 0

/-- Fixture oracles: every reference resolves to the remote URL "S",
whose fetch fails with error 5. -/
def c5Oracles : SchemaOracles :=
  ⟨fun _ _ => some "S", fun _ => .ok 1, fun _ => .error 0,
    fun _ => "https", fun _ => "", fun _ => .error 5⟩

/-- Fixture state: the cache records a failed fetch of "S" (error 9)
and no dependency edges, so a resolving document is a new edge. -/
def c5State : ServerState := ⟨[], [], [("S", ⟨none, some 9⟩)]⟩

lemma utf8RuneLen_pos (c : Char) : 0 < utf8RuneLen c := by
  unfold utf8RuneLen; split <;> [omega; split] <;> [omega; split] <;> omega

lemma utf16RuneLen_pos (c : Char) : 0 < utf16RuneLen c := by
  unfold utf16RuneLen; split <;> omega

@[simp] lemma utf8Len_nil : utf8Len [] = 0 := rfl

@[simp] lemma utf8Len_cons (c : Char) (s : List Char) :
    utf8Len (c :: s) = utf8RuneLen c + utf8Len s := by
  simp [utf8Len]

@[simp] lemma utf8Len_append (a b : List Char) :
    utf8Len (a ++ b) = utf8Len a + utf8Len b := by
  simp [utf8Len]

@[simp] lemma utf16Len_nil : utf16Len [] = 0 := rfl

@[simp] lemma utf16Len_cons (c : Char) (s : List Char) :
    utf16Len (c :: s) = utf16RuneLen c + utf16Len s := by
  simp [utf16Len]

@[simp] lemma takeBytes_zero (s : List Char) : takeBytes s 0 = [] := by
  cases s <;> rfl

lemma takeBytes_append (pre post : List Char) :
    takeBytes (pre ++ post) (utf8Len pre) = pre := by
  induction pre with
  | nil => simp
  | cons c pre ih =>
    have hpos := utf8RuneLen_pos c
    have hne : utf8RuneLen c + utf8Len pre ≠ 0 := by omega
    obtain ⟨m, hm⟩ : ∃ m, utf8RuneLen c + utf8Len pre = m + 1 :=
      ⟨utf8RuneLen c + utf8Len pre - 1, by omega⟩
    simp only [List.cons_append, utf8Len_cons, hm, takeBytes]
    have : m + 1 - utf8RuneLen c = utf8Len pre := by omega
    rw [this, ih]

lemma unresolveLoop_append (a b : List Char) (p : Position) :
    unresolveLoop (a ++ b) p = unresolveLoop b (unresolveLoop a p) := by
  induction a generalizing p with
  | nil => rfl
  | cons c a ih =>
    by_cases h : c = '\n' <;> simp [unresolveLoop, h, ih]

lemma unresolveLoop_no_nl (b : List Char) (p : Position)
    (h : ∀ c ∈ b, c ≠ '\n') :
    unresolveLoop b p = ⟨p.line, p.character + utf16Len b⟩ := by
  induction b generalizing p with
  | nil => simp [unresolveLoop]
  | cons c b ih =>
    have hc : c ≠ '\n' := h c (by simp)
    rw [unresolveLoop, if_neg hc, ih _ (fun x hx => h x (by simp [hx]))]
    simp; omega

lemma unresolveLoop_line (a : List Char) (p : Position) :
    (unresolveLoop a p).line = p.line + a.count '\n' := by
  induction a generalizing p with
  | nil => simp [unresolveLoop]
  | cons c a ih =>
    by_cases h : c = '\n'
    · subst h; simp [unresolveLoop, ih]; omega
    · rw [unresolveLoop, if_neg h, ih]
      simp [List.count_cons, h]

lemma resolveLoop_zero_zero (post : List Char) (ix : Nat) :
    resolveLoop post ix 0 0 = ix := by
  cases post <;> simp [resolveLoop]

lemma resolveLoop_line0 (pre post : List Char) (ix : Nat)
    (h : ∀ c ∈ pre, c ≠ '\n') :
    resolveLoop (pre ++ post) ix 0 (utf16Len pre) = ix + utf8Len pre := by
  induction pre generalizing ix with
  | nil => simp [resolveLoop_zero_zero]
  | cons c pre ih =>
    have hc : c ≠ '\n' := h c (by simp)
    have h16 := utf16RuneLen_pos c
    have h16' := utf16RuneLen_pos c
    have hchar : utf16RuneLen c + utf16Len pre ≠ 0 := by omega
    rw [List.cons_append, utf16Len_cons, resolveLoop]
    rw [if_pos rfl, if_neg hchar, if_neg hc]
    have hcond : ¬(utf16RuneLen c + utf16Len pre = 1 ∧ utf16RuneLen c = 2) := by
      omega
    simp only [hcond, if_false]
    have hsub : utf16RuneLen c + utf16Len pre - utf16RuneLen c = utf16Len pre := by
      omega
    rw [hsub, ih _ (fun x hx => h x (by simp [hx]))]
    simp; omega

lemma resolveLoop_skip (a rest : List Char) (ix char : Nat) :
    resolveLoop (a ++ '\n' :: rest) ix (a.count '\n' + 1) char =
      resolveLoop rest (ix + utf8Len a + 1) 0 char := by
  induction a generalizing ix with
  | nil =>
    have h8 : utf8RuneLen '\n' = 1 := by decide
    simp [resolveLoop, h8]
  | cons c a ih =>
    by_cases h : c = '\n'
    · subst h
      have hcnt : (('\n' : Char) :: a).count '\n' = a.count '\n' + 1 := by
        simp [List.count_cons]
      rw [List.cons_append, resolveLoop]
      have hne : ¬((('\n' : Char) :: a).count '\n' + 1 = 0) := by omega
      rw [if_neg hne, if_pos rfl]
      have h8 : utf8RuneLen '\n' = 1 := by decide
      rw [hcnt]
      have : a.count '\n' + 1 + 1 - 1 = a.count '\n' + 1 := by omega
      rw [this, ih]
      congr 1
      simp [h8]; omega
    · have hcnt : (c :: a).count '\n' = a.count '\n' := by
        simp [List.count_cons, h]
      rw [List.cons_append, resolveLoop]
      have hne : ¬((c :: a).count '\n' + 1 = 0) := by omega
      rw [if_neg hne, if_neg h, hcnt, ih]
      congr 1
      simp; omega

lemma last_nl_split (l : List Char) :
    (∀ c ∈ l, c ≠ '\n') ∨
      ∃ a b, l = a ++ '\n' :: b ∧ ∀ c ∈ b, c ≠ '\n' := by
  induction l with
  | nil => left; simp
  | cons c l ih =>
    rcases ih with h | ⟨a, b, rfl, hb⟩
    · by_cases hc : c = '\n'
      · subst hc; right; exact ⟨[], l, rfl, h⟩
      · left; intro x hx
        rcases List.mem_cons.mp hx with rfl | hx
        · exact hc
        · exact h x hx
    · right; exact ⟨c :: a, b, rfl, hb⟩

/-- C1: on every byte offset that lies on a code-point boundary within
content bounds, `resolve` and `unresolve` are exact inverses:
`resolve (unresolve ix) = ix`, and the position round trip
`unresolve (resolve (unresolve ix))` returns `unresolve ix` unchanged. -/
theorem resolve_unresolve_inverse (content : List Char) (ix : Nat)
    (h : IsBoundary content ix) :
    resolve content (unresolve content ix) = ix ∧
      unresolve content (resolve content (unresolve content ix)) =
        unresolve content ix := by
  obtain ⟨pre, post, rfl, rfl⟩ := h
  have hfirst : resolve (pre ++ post) (unresolve (pre ++ post) (utf8Len pre)) =
      utf8Len pre := by
    rw [unresolve, takeBytes_append]
    rcases last_nl_split pre with hnl | ⟨a, b, rfl, hb⟩
    · rw [unresolveLoop_no_nl pre _ hnl]
      simpa [resolve] using resolveLoop_line0 pre post 0 hnl
    · rw [unresolveLoop_append, unresolveLoop]
      rw [if_pos rfl, unresolveLoop_no_nl b _ hb]
      have hline : (unresolveLoop a ⟨0, 0⟩).line = a.count '\n' := by
        simpa using unresolveLoop_line a ⟨0, 0⟩
      rw [resolve]
      simp only [hline]
      have hassoc : (a ++ '\n' :: b) ++ post = a ++ '\n' :: (b ++ post) := by
        simp
      rw [hassoc, resolveLoop_skip a (b ++ post) 0 (0 + utf16Len b)]
      have := resolveLoop_line0 b post (0 + utf8Len a + 1) hb
      simp only [Nat.zero_add] at this ⊢
      rw [this]
      have h8 : utf8RuneLen '\n' = 1 := by decide
      simp [h8]; omega
  exact ⟨hfirst, by rw [hfirst]⟩

/-- Witness for C1 at the content `"aβ\n𝄞c"` and the boundary byte
offset 4 (just after the newline; `β` is 2 UTF-8 bytes, `𝄞` is 4). -/
theorem resolve_unresolve_inverse_witness :
    IsBoundary ['a', 'β', '\n', '𝄞', 'c'] 4 ∧
      resolve ['a', 'β', '\n', '𝄞', 'c']
          (unresolve ['a', 'β', '\n', '𝄞', 'c'] 4) = 4 := by
  have hb : IsBoundary ['a', 'β', '\n', '𝄞', 'c'] 4 :=
    ⟨['a', 'β', '\n'], ['𝄞', 'c'], rfl, by decide⟩
  exact ⟨hb, (resolve_unresolve_inverse ['a', 'β', '\n', '𝄞', 'c'] 4 hb).1⟩

/-- C7 counterexample: a full-document change (no range) whose text
contains a CRLF does not become the content verbatim — the applied
content is the text with newlines normalized, so the claim "yields
exactly the event's text" fails at this input. -/
theorem applyChange_full_not_verbatim :
    applyChange ['x'] ⟨none, ['a', '\r', '\n', 'b']⟩ = ['a', '\n', 'b'] ∧
      applyChange ['x'] ⟨none, ['a', '\r', '\n', 'b']⟩ ≠ ['a', '\r', '\n', 'b'] := by
  constructor
  · rfl
  · decide

/-- C7 (amended): applying a change whose range is absent yields the
event's text with newlines normalized (`\r\n` and `\r` become `\n`),
regardless of the prior content. -/
theorem applyChange_full_replacement (content : List Char)
    (change : TextDocumentContentChangeEvent) (h : change.range = none) :
    applyChange content change = normalizeNewlines change.text := by
  simp [applyChange, h]

/-- Witness for the amended C7 at concrete inputs. -/
theorem applyChange_full_replacement_witness :
    applyChange ['x', 'y'] ⟨none, ['a', '\r', 'b']⟩ =
      normalizeNewlines ['a', '\r', 'b'] :=
  applyChange_full_replacement ['x', 'y'] ⟨none, ['a', '\r', 'b']⟩ rfl

/-- C10: at `lines = ["a", "  b"]` and starting line 1 the indentation
width is 2 and line 0 has byte length 1 < 2, so the `continue` repeats
the iteration with `lno` unchanged forever: no iteration budget ever
makes `getParentLine` return. The claim that it terminates (in
particular when an earlier line is shorter than the indentation) is
right about the intent and wrong about the code. -/
theorem getParentLine_never_returns :
    ∀ fuel : Nat, getParentLine fuel [['a'], [' ', ' ', 'b']] 1 = none := by
  intro fuel
  show getParentLineLoop [['a'], [' ', ' ', 'b']] 2 fuel 0 = none
  induction fuel with
  | zero => rfl
  | succ n ih =>
    rw [getParentLineLoop]
    simp only [show ((0 : Int) ≤ 0) = True by simp, if_true]
    have h1 : utf8Len ([['a'], [' ', ' ', 'b']].getD (0 : Int).toNat []) < 2 := by
      decide
    rw [if_pos h1]
    exact ih

lemma hexVal_hexDigitChar (n : Nat) (h : n < 16) : hexVal (hexDigitChar n) = some n := by
  interval_cases n <;> decide

lemma parseStrLoop_escapeChar (c : Char) (t : List Char) (fuel : Nat) :
    parseStrLoop (fuel + 1) (escapeChar c ++ t) =
      (parseStrLoop fuel t).map (fun p => (c :: p.1, p.2)) := by
  by_cases h1 : c = '"'
  · subst h1; simp [escapeChar, parseStrLoop, escMap]
  by_cases h2 : c = '\\'
  · subst h2; simp [escapeChar, parseStrLoop, escMap, h1]
  by_cases h3 : c = '\n'
  · subst h3; simp [escapeChar, parseStrLoop, escMap]
  by_cases h4 : c = '\r'
  · subst h4; simp [escapeChar, parseStrLoop, escMap]
  by_cases h5 : c = '\t'
  · subst h5; simp [escapeChar, parseStrLoop, escMap]
  by_cases h6 : c.toNat < 0x20 ∨ c = '<' ∨ c = '>' ∨ c = '&'
  · have hlt : c.toNat < 256 := by
      rcases h6 with h | h | h | h
      · omega
      all_goals (subst h; decide)
    have hd1 : hexVal (hexDigitChar (c.toNat / 16)) = some (c.toNat / 16) :=
      hexVal_hexDigitChar _ (by omega)
    have hd2 : hexVal (hexDigitChar (c.toNat % 16)) = some (c.toNat % 16) :=
      hexVal_hexDigitChar _ (by omega)
    have hzero : hexVal '0' = some 0 := by decide
    rw [escapeChar, if_neg h1, if_neg h2, if_neg h3, if_neg h4, if_neg h5,
      if_pos h6]
    have hnosur : ¬(0xD800 ≤ c.toNat ∧ c.toNat < 0xE000) := by omega
    have hdm : c.toNat / 16 * 16 + c.toNat % 16 = c.toNat := by omega
    simp [parseStrLoop, parseHex4, hd1, hd2, hzero]
    rw [hdm, if_neg hnosur, Char.ofNat_toNat]
  by_cases h7 : c.toNat = 0x2028 ∨ c.toNat = 0x2029
  · have h2v : hexVal '2' = some 2 := by decide
    have h0v : hexVal '0' = some 0 := by decide
    rcases h7 with h | h
    · have hdc : hexDigitChar (c.toNat % 16) = '8' := by rw [h]; decide
      have hc : Char.ofNat 8232 = c := by
        rw [show (8232 : Nat) = c.toNat from h.symm, Char.ofNat_toNat]
      rw [escapeChar, if_neg h1, if_neg h2, if_neg h3, if_neg h4, if_neg h5,
        if_neg h6, if_pos (Or.inl h), hdc]
      have h8v : hexVal '8' = some 8 := by decide
      simp [parseStrLoop, parseHex4, h2v, h0v, h8v]
      rw [hc]
    · have hdc : hexDigitChar (c.toNat % 16) = '9' := by rw [h]; decide
      have hc : Char.ofNat 8233 = c := by
        rw [show (8233 : Nat) = c.toNat from h.symm, Char.ofNat_toNat]
      rw [escapeChar, if_neg h1, if_neg h2, if_neg h3, if_neg h4, if_neg h5,
        if_neg h6, if_pos (Or.inr h), hdc]
      have h9v : hexVal '9' = some 9 := by decide
      simp [parseStrLoop, parseHex4, h2v, h0v, h9v]
      rw [hc]
  · have hesc : escapeChar c = [c] := by
      rw [escapeChar, if_neg h1, if_neg h2, if_neg h3, if_neg h4, if_neg h5,
        if_neg h6, if_neg h7]
    have hctl : ¬ c.toNat < 0x20 := by
      intro hlt; exact h6 (Or.inl hlt)
    rw [hesc]
    simp [parseStrLoop, h1, h2, hctl]

lemma parseStrLoop_escapeStr (s r : List Char) :
    ∀ fuel, s.length < fuel →
      parseStrLoop fuel (escapeStr s ++ ('"' :: r)) = some (s, r) := by
  induction s with
  | nil =>
    intro fuel hf
    obtain ⟨f, rfl⟩ : ∃ f, fuel = f + 1 := ⟨fuel - 1, by omega⟩
    simp [escapeStr, parseStrLoop]
  | cons c s ih =>
    intro fuel hf
    obtain ⟨f, rfl⟩ : ∃ f, fuel = f + 1 := ⟨fuel - 1, by omega⟩
    have hes : escapeStr (c :: s) = escapeChar c ++ escapeStr s := by
      simp [escapeStr]
    rw [hes, List.append_assoc, parseStrLoop_escapeChar]
    rw [ih f (by simp at hf ⊢; omega)]
    rfl

lemma isDigit_iff (c : Char) : isDigit c = true ↔ 48 ≤ c.toNat ∧ c.toNat ≤ 57 := by
  simp [isDigit, show '0'.toNat = 48 from rfl, show '9'.toNat = 57 from rfl]
lemma isDigit_ne (c : Char) (h : isDigit c = true) :
    c ≠ '+' ∧ c ≠ '-' ∧ c ≠ '.' ∧ c ≠ 'e' ∧ c ≠ 'E' := by
  have hb := (isDigit_iff c).mp h
  refine ⟨fun hc => ?_, fun hc => ?_, fun hc => ?_, fun hc => ?_, fun hc => ?_⟩ <;>
    (subst hc; revert hb; decide)

lemma expSign_other (c : Char) (t : List Char) (h1 : c ≠ '+') (h2 : c ≠ '-') :
    expSign (c :: t) = (false, c :: t) := by
  simp only [expSign]
  split <;> simp_all

lemma negSign_other (c : Char) (t : List Char) (h : c ≠ '-') :
    negSign (c :: t) = (false, c :: t) := by
  simp only [negSign]
  split <;> simp_all

lemma digits_stop (d r : List Char) (hd : ∀ x ∈ d, isDigit x = true)
    (hr : ∀ c t, r = c :: t → isDigit c = false) :
    digits (d ++ r) = (d, r) := by
  induction d with
  | nil =>
    cases r with
    | nil => rfl
    | cons c t => simp [digits, hr c t rfl]
  | cons c d ih =>
    simp [digits, hd c (by simp), ih (fun x hx => hd x (by simp [hx]))]

lemma afterFrac_cons_e (neg : Bool) (ip fp X : List Char) :
    afterFrac neg ip fp ('e' :: X) =
      (let p := expSign X
       let d := digits p.2
       if d.1 = [] then none else some (⟨neg, ip, fp, p.1, d.1⟩, d.2)) := by
  simp [afterFrac]

lemma afterFrac_stop (neg : Bool) (ip fp : List Char) (c : Char) (t : List Char)
    (h1 : c ≠ 'e') (h2 : c ≠ 'E') :
    afterFrac neg ip fp (c :: t) = some (⟨neg, ip, fp, false, []⟩, c :: t) := by
  simp [afterFrac, h1, h2]

lemma afterFrac_ser (neg : Bool) (ip fp : List Char) (en : Bool) (ed r : List Char)
    (hed : ∀ x ∈ ed, isDigit x = true)
    (hne : en = true → ed ≠ [])
    (hr : ∀ c t, r = c :: t → isDigit c = false ∧ c ≠ 'e' ∧ c ≠ 'E') :
    afterFrac neg ip fp
        ((if ed = [] then []
          else 'e' :: ((if en then ['-'] else []) ++ ed)) ++ r) =
      some (⟨neg, ip, fp, en, ed⟩, r) := by
  by_cases hed0 : ed = []
  · have hen : en = false := by
      cases en
      · rfl
      · exact absurd (hne rfl) (by simp [hed0])
    subst hen hed0
    rw [if_pos rfl, List.nil_append]
    cases r with
    | nil => simp [afterFrac]
    | cons c t =>
      obtain ⟨-, hce, hcE⟩ := hr c t rfl
      exact afterFrac_stop neg ip fp c t hce hcE
  · obtain ⟨e1, ed', hed'⟩ := List.exists_cons_of_ne_nil hed0
    have hdig : digits (ed ++ r) = (ed, r) :=
      digits_stop ed r hed (fun c t hct => (hr c t hct).1)
    rw [if_neg hed0, List.cons_append, List.append_assoc, afterFrac_cons_e]
    cases en with
    | true =>
      rw [show (if (true : Bool) = true then ['-'] else ([] : List Char)) = ['-']
          from rfl,
        List.singleton_append,
        show expSign ('-' :: (ed ++ r)) = (true, ed ++ r) from rfl]
      simp [hdig, hed0]
    | false =>
      have he1 : isDigit e1 = true := hed e1 (by rw [hed']; simp)
      obtain ⟨hp, hm, -, -, -⟩ := isDigit_ne e1 he1
      rw [show (if (false : Bool) = true then ['-'] else ([] : List Char)) = []
          from rfl,
        List.nil_append, hed', List.cons_append,
        expSign_other e1 (ed' ++ r) hp hm, ← List.cons_append, ← hed']
      simp [hdig, hed0]

lemma afterInt_not_dot (neg : Bool) (ip : List Char) (s : List Char)
    (h : ∀ t, s ≠ '.' :: t) :
    afterInt neg ip s = afterFrac neg ip [] s := by
  simp only [afterInt]

lemma afterInt_cons_dot (neg : Bool) (ip X : List Char) :
    afterInt neg ip ('.' :: X) =
      (let d := digits X
       if d.1 = [] then none else afterFrac neg ip d.1 d.2) := by
  simp [afterInt]

lemma afterInt_ser (neg : Bool) (ip fp : List Char) (en : Bool) (ed r : List Char)
    (hfp : ∀ x ∈ fp, isDigit x = true)
    (hed : ∀ x ∈ ed, isDigit x = true)
    (hne : en = true → ed ≠ [])
    (hr : ∀ c t, r = c :: t →
      isDigit c = false ∧ c ≠ '.' ∧ c ≠ 'e' ∧ c ≠ 'E') :
    afterInt neg ip
        ((if fp = [] then [] else '.' :: fp) ++
          ((if ed = [] then []
            else 'e' :: ((if en then ['-'] else []) ++ ed)) ++ r)) =
      some (⟨neg, ip, fp, en, ed⟩, r) := by
  have hr' : ∀ c t, r = c :: t → isDigit c = false ∧ c ≠ 'e' ∧ c ≠ 'E' :=
    fun c t hct => ⟨(hr c t hct).1, (hr c t hct).2.2.1, (hr c t hct).2.2.2⟩
  by_cases hfp0 : fp = []
  · rw [if_pos hfp0, List.nil_append]
    have hnd : ∀ t, ((if ed = [] then []
        else 'e' :: ((if en then ['-'] else []) ++ ed)) ++ r) ≠ '.' :: t := by
      intro t hct
      by_cases hed' : ed = []
      · rw [if_pos hed', List.nil_append] at hct
        exact (hr '.' t hct).2.1 rfl
      · rw [if_neg hed', List.cons_append] at hct
        injection hct with h1 _
        exact absurd h1 (by decide)
    rw [afterInt_not_dot _ _ _ hnd, hfp0]
    exact afterFrac_ser neg ip [] en ed r hed hne hr'
  · have hstop : ∀ c t, ((if ed = [] then []
        else 'e' :: ((if en then ['-'] else []) ++ ed)) ++ r) = c :: t →
        isDigit c = false := by
      intro c t hct
      by_cases hed' : ed = []
      · rw [if_pos hed', List.nil_append] at hct
        exact (hr c t hct).1
      · rw [if_neg hed', List.cons_append] at hct
        injection hct with h1 _
        rw [← h1]; decide
    have hdig := digits_stop fp _ hfp hstop
    rw [if_neg hfp0, List.cons_append, afterInt_cons_dot, hdig]
    simp only [hfp0, if_neg hfp0]
    exact afterFrac_ser neg ip fp en ed r hed hne hr'

lemma parseNum_cons (c : Char) (r1 : List Char) (hmc : c ≠ '-') :
    parseNum (c :: r1) =
      (if c = '0' then afterInt false ['0'] r1
       else if isDigit c then afterInt false (c :: (digits r1).1) (digits r1).2
       else none) := by
  simp only [parseNum, negSign_other c r1 hmc]

lemma parseNum_negCons (c : Char) (r1 : List Char) :
    parseNum ('-' :: c :: r1) =
      (if c = '0' then afterInt true ['0'] r1
       else if isDigit c then afterInt true (c :: (digits r1).1) (digits r1).2
       else none) := by
  simp only [parseNum]
  rw [show negSign ('-' :: c :: r1) = (true, c :: r1) from rfl]

lemma parseNum_serNum (m : NumLex) (r : List Char) (hm : NumWF m)
    (hr : ∀ c t, r = c :: t →
      isDigit c = false ∧ c ≠ '.' ∧ c ≠ 'e' ∧ c ≠ 'E' ∧ c ≠ '-') :
    parseNum (serNum m ++ r) = some (m, r) := by
  obtain ⟨neg, ip, fp, en, ed⟩ := m
  obtain ⟨hint, hfp, hed, hne⟩ := hm
  simp only at hint hfp hed hne
  have hr4 : ∀ c t, r = c :: t →
      isDigit c = false ∧ c ≠ '.' ∧ c ≠ 'e' ∧ c ≠ 'E' :=
    fun c t hct => ⟨(hr c t hct).1, (hr c t hct).2.1, (hr c t hct).2.2.1,
      (hr c t hct).2.2.2.1⟩
  have hafter := afterInt_ser neg ip fp en ed r hfp hed hne hr4
  rcases hint with h0 | ⟨c, t, hct, hc1, hc9, ht⟩
  · subst h0
    cases neg with
    | true =>
      rw [show serNum ⟨true, ['0'], fp, en, ed⟩ ++ r =
          '-' :: '0' :: ((if fp = [] then [] else '.' :: fp) ++
            ((if ed = [] then []
              else 'e' :: ((if en then ['-'] else []) ++ ed)) ++ r)) from by
        simp [serNum]]
      rw [parseNum_negCons, if_pos rfl]
      exact hafter
    | false =>
      rw [show serNum ⟨false, ['0'], fp, en, ed⟩ ++ r =
          '0' :: ((if fp = [] then [] else '.' :: fp) ++
            ((if ed = [] then []
              else 'e' :: ((if en then ['-'] else []) ++ ed)) ++ r)) from by
        simp [serNum]]
      rw [parseNum_cons '0' _ (by decide), if_pos rfl]
      exact hafter
  · have hc1' : 49 ≤ c.toNat := by
      have : '1'.toNat = 49 := rfl
      omega
    have hc9' : c.toNat ≤ 57 := by
      have : '9'.toNat = 57 := rfl
      omega
    have hcd : isDigit c = true := (isDigit_iff c).mpr (by omega)
    have hcne0 : ¬(c = '0') := by
      intro h0'
      rw [h0'] at hc1'
      revert hc1'
      decide
    have hcnem : c ≠ '-' := (isDigit_ne c hcd).2.1
    have hstopX : ∀ x u, ((if fp = [] then [] else '.' :: fp) ++
        ((if ed = [] then []
          else 'e' :: ((if en then ['-'] else []) ++ ed)) ++ r)) = x :: u →
        isDigit x = false := by
      intro x u hxu
      by_cases hfp' : fp = []
      · rw [if_pos hfp', List.nil_append] at hxu
        by_cases hed' : ed = []
        · rw [if_pos hed', List.nil_append] at hxu
          exact (hr4 x u hxu).1
        · rw [if_neg hed', List.cons_append] at hxu
          injection hxu with h1 _
          rw [← h1]; decide
      · rw [if_neg hfp', List.cons_append] at hxu
        injection hxu with h1 _
        rw [← h1]; decide
    have hdig := digits_stop t _ ht hstopX
    subst hct
    cases neg with
    | true =>
      rw [show serNum ⟨true, c :: t, fp, en, ed⟩ ++ r =
          '-' :: c :: (t ++ ((if fp = [] then [] else '.' :: fp) ++
            ((if ed = [] then []
              else 'e' :: ((if en then ['-'] else []) ++ ed)) ++ r))) from by
        simp [serNum]]
      rw [parseNum_negCons, if_neg hcne0, if_pos hcd, hdig]
      exact hafter
    | false =>
      rw [show serNum ⟨false, c :: t, fp, en, ed⟩ ++ r =
          c :: (t ++ ((if fp = [] then [] else '.' :: fp) ++
            ((if ed = [] then []
              else 'e' :: ((if en then ['-'] else []) ++ ed)) ++ r))) from by
        simp [serNum]]
      rw [parseNum_cons c _ hcnem, if_neg hcne0, if_pos hcd, hdig]
      exact hafter
lemma skipWs_not (c : Char) (t : List Char) (h : isJsonWs c = false) :
    skipWs (c :: t) = c :: t := by
  simp [skipWs, h]

lemma escapeChar_length_pos (c : Char) : 1 ≤ (escapeChar c).length := by
  unfold escapeChar
  split_ifs <;> simp

lemma escapeStr_length_ge (s : List Char) : s.length ≤ (escapeStr s).length := by
  induction s with
  | nil => simp [escapeStr]
  | cons c s ih =>
    have := escapeChar_length_pos c
    simp only [escapeStr, List.map_cons, List.flatten_cons, List.length_append,
      List.length_cons] at ih ⊢
    omega

lemma jsize_pos (v : Json) : 1 ≤ jsize v := by
  cases v <;> simp [jsize]

lemma lsize_pos (es : List Json) : 1 ≤ lsize es := by
  cases es <;> simp [lsize] <;> omega

lemma fsize_pos (fs : List (List Char × Json)) : 1 ≤ fsize fs := by
  cases fs <;> simp [fsize] <;> omega

lemma isDigit_notKw (c : Char) (h : isDigit c = true) :
    isJsonWs c = false ∧ c ≠ 'n' ∧ c ≠ 't' ∧ c ≠ 'f' ∧ c ≠ '"' ∧
      c ≠ '[' ∧ c ≠ '\x7b' ∧ c ≠ ']' ∧ c ≠ '\x7d' ∧ c ≠ ',' := by
  have hb := (isDigit_iff c).mp h
  have hsp : c ≠ ' ' := fun hc => by subst hc; revert hb; decide
  have hta : c ≠ '\t' := fun hc => by subst hc; revert hb; decide
  have hnl : c ≠ '\n' := fun hc => by subst hc; revert hb; decide
  have hcr : c ≠ '\r' := fun hc => by subst hc; revert hb; decide
  refine ⟨by simp [isJsonWs, hsp, hta, hnl, hcr], ?_, ?_, ?_, ?_, ?_, ?_, ?_, ?_, ?_⟩ <;>
    (intro hc; subst hc; revert hb; decide)

lemma serNum_shape (m : NumLex) (hm : NumWF m) :
    ∃ c t, serNum m = c :: t ∧ (c = '-' ∨ isDigit c = true) := by
  obtain ⟨neg, ip, fp, en, ed⟩ := m
  obtain ⟨hint, -, -, -⟩ := hm
  simp only at hint
  cases neg with
  | true =>
    refine ⟨'-', ip ++ ((if fp = [] then [] else '.' :: fp) ++
      (if ed = [] then [] else 'e' :: ((if en then ['-'] else []) ++ ed))), ?_,
      Or.inl rfl⟩
    simp [serNum]
  | false =>
    rcases hint with h0 | ⟨c, t, hct, hc1, hc9, -⟩
    · refine ⟨'0', (if fp = [] then [] else '.' :: fp) ++
        (if ed = [] then [] else 'e' :: ((if en then ['-'] else []) ++ ed)), ?_,
        Or.inr (by decide)⟩
      simp [serNum, h0]
    · refine ⟨c, t ++ ((if fp = [] then [] else '.' :: fp) ++
        (if ed = [] then [] else 'e' :: ((if en then ['-'] else []) ++ ed))), ?_,
        Or.inr ((isDigit_iff c).mpr (by
          have h1 : '1'.toNat = 49 := rfl
          have h9 : '9'.toNat = 57 := rfl
          omega))⟩
      simp [serNum, hct]

lemma parseVal_num_step (g : Nat) (c : Char) (t : List Char)
    (hc : c = '-' ∨ isDigit c = true) :
    parseVal (g + 1) (c :: t) =
      (parseNum (c :: t)).map (fun p => (.num p.1, p.2)) := by
  rcases hc with rfl | hd
  · simp [parseVal, skipWs, isJsonWs]
  · obtain ⟨hw, hn, ht', hf, hq, hlb, hob, -, -, -⟩ := isDigit_notKw c hd
    rw [show parseVal (g + 1) (c :: t) =
        (match skipWs (c :: t) with
        | [] => none
        | c :: rest =>
          if c = 'n' then
            match rest with
            | 'u' :: 'l' :: 'l' :: r => some (.null, r)
            | _ => none
          else if c = 't' then
            match rest with
            | 'r' :: 'u' :: 'e' :: r => some (.bool true, r)
            | _ => none
          else if c = 'f' then
            match rest with
            | 'a' :: 'l' :: 's' :: 'e' :: r => some (.bool false, r)
            | _ => none
          else if c = '"' then
            (parseStrLoop (rest.length + 1) rest).map (fun p => (.str p.1, p.2))
          else if c = '-' ∨ isDigit c then
            (parseNum (c :: rest)).map (fun p => (.num p.1, p.2))
          else if c = '[' then
            let r1 := skipWs rest
            if r1.head? = some ']' then some (.arr [], r1.tail)
            else (parseElems g r1).map (fun p => (.arr p.1, p.2))
          else if c = '\x7b' then
            let r1 := skipWs rest
            if r1.head? = some '\x7d' then some (.obj [], r1.tail)
            else (parseFields g r1).map (fun p => (.obj p.1, p.2))
          else none) from by simp [parseVal]]
    rw [skipWs_not c t hw]
    simp only [if_neg hn, if_neg ht', if_neg hf, if_neg hq]
    rw [if_pos (Or.inr (by simp [hd]))]

lemma serVal_head (v : Json) (hwf : WFJson v) :
    ∃ c t, serVal v = c :: t ∧ isJsonWs c = false ∧
      c ≠ ']' ∧ c ≠ '\x7d' ∧ c ≠ ',' := by
  cases v with
  | null => exact ⟨'n', _, rfl, by decide, by decide, by decide, by decide⟩
  | bool b =>
    cases b
    · exact ⟨'f', _, rfl, by decide, by decide, by decide, by decide⟩
    · exact ⟨'t', _, rfl, by decide, by decide, by decide, by decide⟩
  | str s => exact ⟨'"', _, rfl, by decide, by decide, by decide, by decide⟩
  | num m =>
    obtain ⟨c, t, hser, hc⟩ := serNum_shape m hwf
    refine ⟨c, t, by simp [serVal, hser], ?_, ?_, ?_, ?_⟩ <;>
      (rcases hc with rfl | hd
       · decide
       · first
         | exact (isDigit_notKw c hd).1
         | exact (isDigit_notKw c hd).2.2.2.2.2.2.2.1
         | exact (isDigit_notKw c hd).2.2.2.2.2.2.2.2.1
         | exact (isDigit_notKw c hd).2.2.2.2.2.2.2.2.2)
  | arr es => exact ⟨'[', _, rfl, by decide, by decide, by decide, by decide⟩
  | obj fs => exact ⟨'\x7b', _, rfl, by decide, by decide, by decide, by decide⟩

lemma stopOk_parseNum_side (r : List Char) (h : StopOk r) :
    ∀ c t, r = c :: t →
      isDigit c = false ∧ c ≠ '.' ∧ c ≠ 'e' ∧ c ≠ 'E' ∧ c ≠ '-' := by
  intro c t hct
  rcases h with rfl | ⟨c', t', rfl, hc⟩
  · simp at hct
  · injection hct with h1 h2
    subst h1
    rcases hc with rfl | rfl | rfl <;>
      exact ⟨by decide, by decide, by decide, by decide, by decide⟩

lemma parse_ser : ∀ fuel : Nat,
    (∀ v r, jsize v ≤ fuel → WFJson v → StopOk r →
      parseVal fuel (serVal v ++ r) = some (v, r)) ∧
    (∀ es r, es ≠ [] → lsize es ≤ fuel → WFJsonList es →
      parseElems fuel (serArrElems es ++ (']' :: r)) = some (es, r)) ∧
    (∀ fs r, fs ≠ [] → fsize fs ≤ fuel → WFJsonFields fs →
      parseFields fuel (serObjFields fs ++ ('\x7d' :: r)) = some (fs, r)) := by
  intro fuel
  induction fuel using Nat.strong_induction_on with
  | _ fuel ih =>
  refine ⟨?_, ?_, ?_⟩
  · intro v r hsz hwf hstop
    obtain ⟨g, rfl⟩ : ∃ g, fuel = g + 1 :=
      ⟨fuel - 1, by have := jsize_pos v; omega⟩
    cases v with
    | null => simp [serVal, parseVal, skipWs, isJsonWs]
    | bool b => cases b <;> simp [serVal, parseVal, skipWs, isJsonWs]
    | str s =>
      have hnorm : serVal (.str s) ++ r = '"' :: (escapeStr s ++ ('"' :: r)) := by
        simp [serVal]
      rw [hnorm]
      have hlen : s.length < (escapeStr s ++ ('"' :: r)).length + 1 := by
        have := escapeStr_length_ge s
        simp only [List.length_append, List.length_cons]
        omega
      rw [show parseVal (g + 1) ('"' :: (escapeStr s ++ ('"' :: r))) =
          (parseStrLoop ((escapeStr s ++ ('"' :: r)).length + 1)
            (escapeStr s ++ ('"' :: r))).map (fun p => (Json.str p.1, p.2)) from by
        simp [parseVal, skipWs, isJsonWs]]
      rw [parseStrLoop_escapeStr s r _ hlen]
      rfl
    | num m =>
      have hm : NumWF m := hwf
      obtain ⟨c, t, hser, hc⟩ := serNum_shape m hm
      have hnorm : serVal (.num m) ++ r = c :: (t ++ r) := by
        simp [serVal, hser]
      rw [hnorm, parseVal_num_step g c (t ++ r) hc]
      rw [show c :: (t ++ r) = serNum m ++ r from by simp [hser]]
      rw [parseNum_serNum m r hm (stopOk_parseNum_side r hstop)]
      rfl
    | arr es =>
      have hwfl : WFJsonList es := hwf
      cases es with
      | nil => simp [serVal, serArrElems, parseVal, skipWs, isJsonWs, isDigit]
      | cons e es' =>
        obtain ⟨c, t, hhead, hw, hrb, hcb, hcm⟩ := serVal_head e hwfl.1
        obtain ⟨X, hX⟩ : ∃ X, serArrElems (e :: es') = c :: X := by
          cases es' with
          | nil => exact ⟨t, by simpa [serArrElems] using hhead⟩
          | cons e2 es'' =>
            exact ⟨t ++ (',' :: serArrElems (e2 :: es'')),
              by simp [serArrElems, hhead]⟩
        have hnorm : serVal (.arr (e :: es')) ++ r =
            '[' :: (serArrElems (e :: es') ++ (']' :: r)) := by
          simp [serVal]
        rw [hnorm]
        rw [show parseVal (g + 1)
            ('[' :: (serArrElems (e :: es') ++ (']' :: r))) =
            (if (skipWs (serArrElems (e :: es') ++ (']' :: r))).head? =
                some ']' then
              some (Json.arr [],
                (skipWs (serArrElems (e :: es') ++ (']' :: r))).tail)
            else (parseElems g
                (skipWs (serArrElems (e :: es') ++ (']' :: r)))).map
              (fun p => (Json.arr p.1, p.2))) from by
          simp [parseVal, skipWs, isJsonWs, isDigit]]
        rw [show skipWs (serArrElems (e :: es') ++ (']' :: r)) =
            serArrElems (e :: es') ++ (']' :: r) from by
          rw [hX, List.cons_append]
          exact skipWs_not c _ hw]
        rw [hX, List.cons_append]
        rw [if_neg (by simp [hrb])]
        rw [← List.cons_append, ← hX]
        have hlst := (ih g (by omega)).2.1 (e :: es') r (by simp)
          (by simp [jsize] at hsz; omega) hwfl
        rw [hlst]
        rfl
    | obj fs =>
      have hwff : WFJsonFields fs := hwf
      cases fs with
      | nil => simp [serVal, serObjFields, parseVal, skipWs, isJsonWs, isDigit]
      | cons f fs' =>
        have hX : ∃ X, serObjFields (f :: fs') = '"' :: X := by
          cases fs' with
          | nil =>
            exact ⟨escapeStr f.1 ++ ['"', ':'] ++ serVal f.2,
              by simp [serObjFields]⟩
          | cons f2 fs'' =>
            exact ⟨escapeStr f.1 ++ ['"', ':'] ++ serVal f.2 ++ [','] ++
              serObjFields (f2 :: fs''), by simp [serObjFields]⟩
        obtain ⟨X, hX⟩ := hX
        have hnorm : serVal (.obj (f :: fs')) ++ r =
            '\x7b' :: (serObjFields (f :: fs') ++ ('\x7d' :: r)) := by
          simp [serVal]
        rw [hnorm]
        rw [show parseVal (g + 1)
            ('\x7b' :: (serObjFields (f :: fs') ++ ('\x7d' :: r))) =
            (if (skipWs (serObjFields (f :: fs') ++ ('\x7d' :: r))).head? =
                some '\x7d' then
              some (Json.obj [],
                (skipWs (serObjFields (f :: fs') ++ ('\x7d' :: r))).tail)
            else (parseFields g
                (skipWs (serObjFields (f :: fs') ++ ('\x7d' :: r)))).map
              (fun p => (Json.obj p.1, p.2))) from by
          simp [parseVal, skipWs, isJsonWs, isDigit]]
        rw [show skipWs (serObjFields (f :: fs') ++ ('\x7d' :: r)) =
            serObjFields (f :: fs') ++ ('\x7d' :: r) from by
          rw [hX, List.cons_append]
          exact skipWs_not '"' _ (by decide)]
        rw [hX, List.cons_append]
        rw [if_neg (by simp)]
        rw [← List.cons_append, ← hX]
        have hlst := (ih g (by omega)).2.2 (f :: fs') r (by simp)
          (by simp [jsize] at hsz; omega) hwff
        rw [hlst]
        rfl
  · intro es r hne hsz hwf
    obtain ⟨g, rfl⟩ : ∃ g, fuel = g + 1 :=
      ⟨fuel - 1, by have := lsize_pos es; omega⟩
    obtain ⟨e, es', rfl⟩ : ∃ e es', es = e :: es' := by
      cases es with
      | nil => exact absurd rfl hne
      | cons a b => exact ⟨a, b, rfl⟩
    have hje : jsize e ≤ g := by
      have h1 := lsize_pos es'
      simp [lsize] at hsz
      omega
    cases es' with
    | nil =>
      have hv := (ih g (by omega)).1 e (']' :: r) hje hwf.1
        (Or.inr ⟨']', r, rfl, Or.inr (Or.inl rfl)⟩)
      rw [show serArrElems [e] ++ (']' :: r) = serVal e ++ (']' :: r) from by
        simp [serArrElems]]
      simp only [parseElems]
      rw [hv]
      simp [skipWs, isJsonWs]
    | cons e2 es'' =>
      have hser : serArrElems (e :: e2 :: es'') ++ (']' :: r) =
          serVal e ++ (',' :: (serArrElems (e2 :: es'') ++ (']' :: r))) := by
        simp [serArrElems]
      have hv := (ih g (by omega)).1 e
        (',' :: (serArrElems (e2 :: es'') ++ (']' :: r))) hje hwf.1
        (Or.inr ⟨',', _, rfl, Or.inl rfl⟩)
      have hrest := (ih g (by omega)).2.1 (e2 :: es'') r (by simp)
        (by simp [lsize] at hsz ⊢; omega) hwf.2
      rw [hser]
      simp only [parseElems]
      rw [hv]
      simp only [Option.some_bind]
      rw [show skipWs (',' :: (serArrElems (e2 :: es'') ++ (']' :: r))) =
          ',' :: (serArrElems (e2 :: es'') ++ (']' :: r)) from
        skipWs_not ',' _ (by decide)]
      simp only [List.head?_cons, List.tail_cons]
      rw [if_pos trivial, hrest]
      rfl
  · intro fs r hne hsz hwf
    obtain ⟨g, rfl⟩ : ∃ g, fuel = g + 1 :=
      ⟨fuel - 1, by have := fsize_pos fs; omega⟩
    obtain ⟨f, fs', rfl⟩ : ∃ f fs', fs = f :: fs' := by
      cases fs with
      | nil => exact absurd rfl hne
      | cons a b => exact ⟨a, b, rfl⟩
    obtain ⟨k, v⟩ := f
    have hjv : jsize v ≤ g := by
      have h1 := fsize_pos fs'
      simp [fsize] at hsz
      omega
    have hkey : ∀ Y : List Char,
        parseStrLoop ((escapeStr k ++ ('"' :: Y)).length + 1)
          (escapeStr k ++ ('"' :: Y)) = some (k, Y) := by
      intro Y
      apply parseStrLoop_escapeStr
      have := escapeStr_length_ge k
      simp only [List.length_append, List.length_cons]
      omega
    cases fs' with
    | nil =>
      have hser : serObjFields [(k, v)] ++ ('\x7d' :: r) =
          '"' :: (escapeStr k ++
            ('"' :: (':' :: (serVal v ++ ('\x7d' :: r))))) := by
        simp [serObjFields]
      have hv := (ih g (by omega)).1 v ('\x7d' :: r) hjv hwf.1
        (Or.inr ⟨'\x7d', r, rfl, Or.inr (Or.inr rfl)⟩)
      rw [hser]
      simp only [parseFields]
      rw [show skipWs ('"' :: (escapeStr k ++
          ('"' :: (':' :: (serVal v ++ ('\x7d' :: r)))))) =
          '"' :: (escapeStr k ++ ('"' :: (':' :: (serVal v ++ ('\x7d' :: r)))))
        from skipWs_not '"' _ (by decide)]
      simp only [List.head?_cons, List.tail_cons]
      rw [if_pos trivial, hkey (':' :: (serVal v ++ ('\x7d' :: r)))]
      simp only [Option.some_bind]
      rw [show skipWs (':' :: (serVal v ++ ('\x7d' :: r))) =
          ':' :: (serVal v ++ ('\x7d' :: r)) from skipWs_not ':' _ (by decide)]
      simp only [List.head?_cons, List.tail_cons]
      rw [if_pos trivial, hv]
      simp only [Option.some_bind]
      rw [show skipWs ('\x7d' :: r) = '\x7d' :: r from
        skipWs_not '\x7d' _ (by decide)]
      simp only [List.head?_cons, List.tail_cons]
      rw [if_neg (by simp), if_pos trivial]
    | cons f2 fs'' =>
      have hser : serObjFields ((k, v) :: f2 :: fs'') ++ ('\x7d' :: r) =
          '"' :: (escapeStr k ++ ('"' :: (':' :: (serVal v ++
            (',' :: (serObjFields (f2 :: fs'') ++ ('\x7d' :: r))))))) := by
        simp [serObjFields]
      have hv := (ih g (by omega)).1 v
        (',' :: (serObjFields (f2 :: fs'') ++ ('\x7d' :: r))) hjv hwf.1
        (Or.inr ⟨',', _, rfl, Or.inl rfl⟩)
      have hrest := (ih g (by omega)).2.2 (f2 :: fs'') r (by simp)
        (by simp [fsize] at hsz ⊢; omega) hwf.2
      rw [hser]
      simp only [parseFields]
      rw [show skipWs ('"' :: (escapeStr k ++ ('"' :: (':' :: (serVal v ++
          (',' :: (serObjFields (f2 :: fs'') ++ ('\x7d' :: r)))))))) =
          '"' :: (escapeStr k ++ ('"' :: (':' :: (serVal v ++
            (',' :: (serObjFields (f2 :: fs'') ++ ('\x7d' :: r)))))))
        from skipWs_not '"' _ (by decide)]
      simp only [List.head?_cons, List.tail_cons]
      rw [if_pos trivial, hkey (':' :: (serVal v ++
        (',' :: (serObjFields (f2 :: fs'') ++ ('\x7d' :: r)))))]
      simp only [Option.some_bind]
      rw [show skipWs (':' :: (serVal v ++
          (',' :: (serObjFields (f2 :: fs'') ++ ('\x7d' :: r))))) =
          ':' :: (serVal v ++
            (',' :: (serObjFields (f2 :: fs'') ++ ('\x7d' :: r))))
        from skipWs_not ':' _ (by decide)]
      simp only [List.head?_cons, List.tail_cons]
      rw [if_pos trivial, hv]
      simp only [Option.some_bind]
      rw [show skipWs (',' :: (serObjFields (f2 :: fs'') ++ ('\x7d' :: r))) =
          ',' :: (serObjFields (f2 :: fs'') ++ ('\x7d' :: r)) from
        skipWs_not ',' _ (by decide)]
      simp only [List.head?_cons, List.tail_cons]
      rw [if_pos trivial, hrest]
      rfl
lemma digitChar_isDigit (m : Nat) (h : m < 10) : isDigit (digitChar m) = true := by
  interval_cases m <;> decide

lemma digitChar_toNat (m : Nat) (h : m < 10) :
    (digitChar m).toNat - '0'.toNat = m := by
  interval_cases m <;> decide

lemma natDigitsAux_eq (fuel : Nat) :
    ∀ n acc, n ≤ fuel → natDigitsAux fuel n acc = natDigitsW n ++ acc := by
  induction fuel with
  | zero =>
    intro n acc h
    have : n = 0 := by omega
    subst this
    rw [natDigitsW]
    rfl
  | succ f ih =>
    intro n acc h
    by_cases h10 : n < 10
    · rw [natDigitsAux, if_pos h10, natDigitsW, dif_pos h10]
      rfl
    · rw [natDigitsAux, if_neg h10, natDigitsW, dif_neg h10,
        ih (n / 10) _ (by omega)]
      simp

lemma natDigits_eq (n : Nat) : natDigits n = natDigitsW n := by
  rw [natDigits, natDigitsAux_eq n n [] le_rfl, List.append_nil]

lemma natDigitsW_digits (n : Nat) : ∀ c ∈ natDigitsW n, isDigit c = true := by
  induction n using Nat.strong_induction_on with
  | _ n ih =>
    by_cases h10 : n < 10
    · rw [natDigitsW, dif_pos h10]
      intro c hc
      simp at hc
      rw [hc]
      exact digitChar_isDigit n h10
    · rw [natDigitsW, dif_neg h10]
      intro c hc
      rcases List.mem_append.mp hc with hc | hc
      · exact ih (n / 10) (Nat.div_lt_self (by omega) (by omega)) c hc
      · simp at hc
        rw [hc]
        exact digitChar_isDigit _ (Nat.mod_lt _ (by omega))

lemma natDigitsW_ne_nil (n : Nat) : natDigitsW n ≠ [] := by
  rw [natDigitsW]
  split <;> simp

lemma natDigitsW_head (n : Nat) (h : 1 ≤ n) :
    ∃ c t, natDigitsW n = c :: t ∧ 49 ≤ c.toNat ∧ c.toNat ≤ 57 := by
  induction n using Nat.strong_induction_on with
  | _ n ih =>
    by_cases h10 : n < 10
    · refine ⟨digitChar n, [], by rw [natDigitsW, dif_pos h10], ?_, ?_⟩ <;>
        (interval_cases n <;> simp_all <;> decide)
    · obtain ⟨c, t, hct, hc1, hc9⟩ :=
        ih (n / 10) (Nat.div_lt_self (by omega) (by omega)) (by omega)
      exact ⟨c, t ++ [digitChar (n % 10)],
        by rw [natDigitsW, dif_neg h10, hct]; simp, hc1, hc9⟩

lemma digitsToNat_append_one (a : List Char) (c : Char) :
    digitsToNat (a ++ [c]) = digitsToNat a * 10 + (c.toNat - '0'.toNat) := by
  simp [digitsToNat, List.foldl_append]

lemma digitsToNat_natDigitsW (n : Nat) : digitsToNat (natDigitsW n) = n := by
  induction n using Nat.strong_induction_on with
  | _ n ih =>
    by_cases h10 : n < 10
    · rw [natDigitsW, dif_pos h10]
      have h2 := digitChar_toNat n h10
      simp only [digitsToNat, List.foldl_cons, List.foldl_nil, Nat.zero_mul,
        Nat.zero_add]
      exact h2
    · rw [natDigitsW, dif_neg h10, digitsToNat_append_one,
        ih (n / 10) (Nat.div_lt_self (by omega) (by omega)),
        digitChar_toNat _ (Nat.mod_lt _ (by omega))]
      omega

lemma isDigit_not_space (c : Char) (h : isDigit c = true) :
    isSpaceGo c = false := by
  have hb := (isDigit_iff c).mp h
  have h1 : c ≠ ' ' := fun hc => by subst hc; revert hb; decide
  have h2 : c ≠ '\t' := fun hc => by subst hc; revert hb; decide
  have h3 : c ≠ '\n' := fun hc => by subst hc; revert hb; decide
  have h4 : c ≠ '\x0b' := fun hc => by subst hc; revert hb; decide
  have h5 : c ≠ '\x0c' := fun hc => by subst hc; revert hb; decide
  have h6 : c ≠ '\r' := fun hc => by subst hc; revert hb; decide
  simp [isSpaceGo, h1, h2, h3, h4, h5, h6]

lemma trimLeftSpace_not (c : Char) (t : List Char) (h : isSpaceGo c = false) :
    trimLeftSpace (c :: t) = c :: t := by
  simp [trimLeftSpace, h]

lemma trimSpace_digits (D : List Char) (hD : ∀ c ∈ D, isDigit c = true)
    (hne : D ≠ []) : trimSpace D = D := by
  obtain ⟨c, t, rfl⟩ : ∃ c t, D = c :: t := by
    cases D with
    | nil => exact absurd rfl hne
    | cons a b => exact ⟨a, b, rfl⟩
  obtain ⟨d, u, hdu⟩ : ∃ d u, (c :: t).reverse = d :: u := by
    cases hrev : (c :: t).reverse with
    | nil => exact absurd hrev (by simp)
    | cons a b => exact ⟨a, b, rfl⟩
  have hd : isDigit d = true := by
    have hmem : d ∈ (c :: t).reverse := by rw [hdu]; simp
    exact hD d (List.mem_reverse.mp hmem)
  rw [trimSpace, hdu, trimLeftSpace_not d u (isDigit_not_space d hd), ← hdu,
    List.reverse_reverse,
    trimLeftSpace_not c t (isDigit_not_space c (hD c (by simp)))]

lemma atoi_natDigits (n : Nat) : atoi (natDigits n) = some (n : Int) := by
  rw [natDigits_eq]
  have hne := natDigitsW_ne_nil n
  have hall : (natDigitsW n).all isDigit = true :=
    List.all_eq_true.mpr (natDigitsW_digits n)
  have hplus : ∀ r, natDigitsW n ≠ '+' :: r := by
    intro r hr
    have hmem := natDigitsW_digits n '+' (by rw [hr]; simp)
    revert hmem
    decide
  have hminus : ∀ r, natDigitsW n ≠ '-' :: r := by
    intro r hr
    have hmem := natDigitsW_digits n '-' (by rw [hr]; simp)
    revert hmem
    decide
  simp only [atoi]
  rw [if_pos ⟨hne, hall⟩]
  simp [digitsToNat_natDigitsW]

lemma readLine_append (a b : List Char) (h : '\n' ∉ a) :
    readLine (a ++ '\n' :: b) = some (a ++ ['\n'], b) := by
  induction a with
  | nil => simp [readLine]
  | cons c a ih =>
    have hc : ¬(c = '\n') := fun hx => h (List.mem_cons.mpr (Or.inl hx.symm))
    rw [List.cons_append, readLine, if_neg hc,
      ih (fun hx => h (List.mem_cons.mpr (Or.inr hx)))]
    rfl

lemma cutColon_append (a b : List Char) (h : ':' ∉ a) :
    cutColon (a ++ ':' :: b) = some (a, b) := by
  induction a with
  | nil => simp [cutColon]
  | cons c a ih =>
    have hc : ¬(c = ':') := fun hx => h (List.mem_cons.mpr (Or.inl hx.symm))
    rw [List.cons_append, cutColon, if_neg hc,
      ih (fun hx => h (List.mem_cons.mpr (Or.inr hx)))]
    rfl

lemma readFullBytes_exact (s : List Char) :
    readFullBytes s (utf8Len s) = some (s, []) := by
  induction s with
  | nil => rfl
  | cons c s ih =>
    have hw := utf8RuneLen_pos c
    obtain ⟨m, hm⟩ : ∃ m, utf8RuneLen c + utf8Len s = m + 1 :=
      ⟨utf8RuneLen c + utf8Len s - 1, by omega⟩
    rw [utf8Len_cons, hm, readFullBytes]
    have : m + 1 - utf8RuneLen c = utf8Len s := by omega
    rw [this, ih]
    rfl

lemma lookupField_init (fields : List (List Char × Json)) (k : List Char) :
    ∀ init, fields.foldl (fun acc f => if f.1 = k then some f.2 else acc) init =
      match lookupField fields k with
      | some v => some v
      | none => init := by
  induction fields with
  | nil => intro init; rfl
  | cons f fs ih =>
    intro init
    have hL : lookupField (f :: fs) k =
        fs.foldl (fun acc g => if g.1 = k then some g.2 else acc)
          (if f.1 = k then some f.2 else none) := rfl
    rw [List.foldl_cons, ih, hL, ih (if f.1 = k then some f.2 else none)]
    cases hfs : lookupField fs k with
    | some v => rfl
    | none =>
      by_cases hf : f.1 = k <;> simp [hf]

lemma lookupField_append (a b : List (List Char × Json)) (k : List Char) :
    lookupField (a ++ b) k =
      match lookupField b k with
      | some v => some v
      | none => lookupField a k := by
  rw [lookupField, List.foldl_append, ← lookupField, lookupField_init]

lemma lookupField_none (fs : List (List Char × Json)) (k : List Char)
    (h : ∀ f ∈ fs, f.1 ≠ k) : lookupField fs k = none := by
  induction fs with
  | nil => rfl
  | cons f fs ih =>
    rw [lookupField, List.foldl_cons, if_neg (h f (by simp)), ← lookupField]
    exact ih (fun x hx => h x (by simp [hx]))

lemma lookupField_skipl (a b : List (List Char × Json)) (k : List Char)
    (h : ∀ f ∈ a, f.1 ≠ k) : lookupField (a ++ b) k = lookupField b k := by
  rw [lookupField_append]
  cases hb : lookupField b k with
  | some v => rfl
  | none => exact lookupField_none a k h

lemma lookupField_skipr (a b : List (List Char × Json)) (k : List Char)
    (h : ∀ f ∈ b, f.1 ≠ k) : lookupField (a ++ b) k = lookupField a k := by
  rw [lookupField_append, lookupField_none b k h]

lemma optField_mem (k : List Char) (o : Option Json) :
    ∀ f ∈ optField k o, f.1 = k := by
  cases o <;> simp [optField]

lemma NumWF_numLexOfInt (i : Int) : NumWF (numLexOfInt i) := by
  have hip : (numLexOfInt i).intPart = natDigitsW i.natAbs := by
    simp [numLexOfInt, natDigits_eq]
  refine ⟨?_, by simp [numLexOfInt], by simp [numLexOfInt],
    by simp [numLexOfInt]⟩
  rw [hip]
  by_cases h0 : i.natAbs = 0
  · left
    rw [h0, natDigitsW]
    rfl
  · right
    obtain ⟨c, t, hct, hc1, hc9⟩ := natDigitsW_head i.natAbs (by omega)
    refine ⟨c, t, hct, ?_, ?_,
      fun x hx => natDigitsW_digits i.natAbs x (by rw [hct]; simp [hx])⟩
    · have h1 : '1'.toNat = 49 := rfl
      omega
    · have h9 : '9'.toNat = 57 := rfl
      omega

lemma intOfNumLex_numLexOfInt (i : Int) :
    intOfNumLex (numLexOfInt i) = some i := by
  rw [intOfNumLex, if_pos (by simp [numLexOfInt])]
  show some _ = some i
  congr 1
  show (if (decide (i < 0)) = true then -1 else 1) *
    ((digitsToNat (natDigits i.natAbs) : Int)) = i
  rw [natDigits_eq, digitsToNat_natDigitsW]
  by_cases hi : i < 0
  · rw [if_pos (by simpa using hi)]
    omega
  · rw [if_neg (by simpa using hi)]
    omega

lemma WFJsonFields_append (a b : List (List Char × Json)) :
    WFJsonFields (a ++ b) ↔ WFJsonFields a ∧ WFJsonFields b := by
  induction a with
  | nil => simp [WFJsonFields]
  | cons f fs ih => simp [WFJsonFields, ih, and_assoc]

lemma WF_optField (k : List Char) (o : Option Json)
    (h : ∀ j, o = some j → WFJson j) : WFJsonFields (optField k o) := by
  cases o with
  | none => exact trivial
  | some j => exact ⟨h j rfl, trivial⟩

lemma WF_marshalFrame (f : SingleFrame) (h : WFFrame f) :
    WFJson (marshalFrame f) := by
  show WFJsonFields (frameFields f)
  rw [frameFields]
  simp only [WFJsonFields_append]
  refine ⟨⟨⟨⟨⟨⟨trivial, trivial⟩, WF_optField _ _ h.1⟩, ?_⟩,
    WF_optField _ _ h.2.1⟩, WF_optField _ _ h.2.2⟩, ?_⟩
  · split
    · exact trivial
    · exact ⟨trivial, trivial⟩
  · cases f.error with
    | none => exact trivial
    | some e => exact ⟨⟨NumWF_numLexOfInt e.code, trivial, trivial⟩, trivial⟩

lemma ser_bound : ∀ n : Nat,
    (∀ v, jsize v ≤ n → jsize v ≤ 2 * (serVal v).length + 1) ∧
    (∀ es, lsize es ≤ n → lsize es ≤ 4 + 2 * (serArrElems es).length) ∧
    (∀ fs, fsize fs ≤ n → fsize fs ≤ 4 + 2 * (serObjFields fs).length) := by
  intro n
  induction n with
  | zero =>
    refine ⟨fun v hv => ?_, fun es hes => ?_, fun fs hfs => ?_⟩
    · have := jsize_pos v; omega
    · have := lsize_pos es; omega
    · have := fsize_pos fs; omega
  | succ n ih =>
    refine ⟨fun v hv => ?_, fun es hes => ?_, fun fs hfs => ?_⟩
    · cases v with
      | null => simp [jsize, serVal]
      | bool b => cases b <;> simp [jsize, serVal]
      | num m => simp [jsize]
      | str s => simp [jsize]
      | arr es =>
        have h1 : lsize es ≤ n := by simp [jsize] at hv; omega
        have h2 := ih.2.1 es h1
        simp [jsize, serVal] at h2 ⊢
        omega
      | obj fs =>
        have h1 : fsize fs ≤ n := by simp [jsize] at hv; omega
        have h2 := ih.2.2 fs h1
        simp [jsize, serVal] at h2 ⊢
        omega
    · cases es with
      | nil => simp only [lsize]; omega
      | cons e es' =>
        have h1 : jsize e ≤ n := by
          have := lsize_pos es'; simp [lsize] at hes; omega
        have h2 : lsize es' ≤ n := by
          have := jsize_pos e; simp [lsize] at hes; omega
        have h3 := ih.1 e h1
        have h4 := ih.2.1 es' h2
        cases es' with
        | nil => simp [lsize, serArrElems] at h3 ⊢; omega
        | cons e2 es'' => simp [lsize, serArrElems] at h3 h4 ⊢; omega
    · cases fs with
      | nil => simp only [fsize]; omega
      | cons f fs' =>
        have h1 : jsize f.2 ≤ n := by
          have := fsize_pos fs'; simp [fsize] at hfs; omega
        have h2 : fsize fs' ≤ n := by
          have := jsize_pos f.2; simp [fsize] at hfs; omega
        have h3 := ih.1 f.2 h1
        have h4 := ih.2.2 fs' h2
        cases fs' with
        | nil => simp [fsize, serObjFields] at h3 ⊢; omega
        | cons f2 fs'' => simp [fsize, serObjFields] at h3 h4 ⊢; omega

lemma unmarshal_serVal (v : Json) (hwf : WFJson v) :
    unmarshalJson (serVal v) = some v := by
  have hb : jsize v ≤ 2 * (serVal v).length + 2 := by
    have := (ser_bound (jsize v)).1 v le_rfl
    omega
  have hp := (parse_ser (2 * (serVal v).length + 2)).1 v [] hb hwf (Or.inl rfl)
  rw [List.append_nil] at hp
  rw [unmarshalJson, hp]
  rfl

lemma pair_fst_ne (k k' : List Char) (v : Json) (h : ¬k = k') :
    ∀ x ∈ [(k, v)], x.1 ≠ k' := by
  intro x hx
  rcases List.mem_singleton.mp hx with rfl
  exact h

lemma methodField_mem (f : SingleFrame) :
    ∀ x ∈ (if f.method = [] then ([] : List (List Char × Json))
      else [(methodKey, Json.str f.method)]), x.1 = methodKey := by
  split <;> simp

lemma errField_mem (f : SingleFrame) :
    ∀ x ∈ (match f.error with
      | none => ([] : List (List Char × Json))
      | some e => [(errorKey, marshalRpcError e)]), x.1 = errorKey := by
  cases f.error <;> simp

lemma lookup_frameFields_jsonrpc (f : SingleFrame) :
    lookupField (frameFields f) jsonrpcKey = some (Json.str f.jsonrpc) := by
  rw [frameFields,
    lookupField_skipr _ _ _
      (fun x hx => by rw [errField_mem f x hx]; decide),
    lookupField_skipr _ _ _
      (fun x hx => by rw [optField_mem resultKey f.result x hx]; decide),
    lookupField_skipr _ _ _
      (fun x hx => by rw [optField_mem paramsKey f.params x hx]; decide),
    lookupField_skipr _ _ _
      (fun x hx => by rw [methodField_mem f x hx]; decide),
    lookupField_skipr _ _ _
      (fun x hx => by rw [optField_mem idKey f.id x hx]; decide)]
  rfl

lemma lookup_frameFields_id (f : SingleFrame) :
    lookupField (frameFields f) idKey = f.id := by
  rw [frameFields,
    lookupField_skipr _ _ _
      (fun x hx => by rw [errField_mem f x hx]; decide),
    lookupField_skipr _ _ _
      (fun x hx => by rw [optField_mem resultKey f.result x hx]; decide),
    lookupField_skipr _ _ _
      (fun x hx => by rw [optField_mem paramsKey f.params x hx]; decide),
    lookupField_skipr _ _ _
      (fun x hx => by rw [methodField_mem f x hx]; decide)]
  cases hid : f.id with
  | none =>
    rw [optField, List.append_nil]
    exact lookupField_none _ _ (pair_fst_ne _ _ _ (by decide))
  | some j =>
    rw [optField, lookupField_skipl _ _ _ (pair_fst_ne _ _ _ (by decide))]
    rfl

lemma lookup_frameFields_method (f : SingleFrame) :
    lookupField (frameFields f) methodKey =
      (if f.method = [] then none else some (Json.str f.method)) := by
  rw [frameFields,
    lookupField_skipr _ _ _
      (fun x hx => by rw [errField_mem f x hx]; decide),
    lookupField_skipr _ _ _
      (fun x hx => by rw [optField_mem resultKey f.result x hx]; decide),
    lookupField_skipr _ _ _
      (fun x hx => by rw [optField_mem paramsKey f.params x hx]; decide)]
  by_cases hm : f.method = []
  · rw [if_pos hm, if_pos hm, List.append_nil,
      lookupField_skipr _ _ _
        (fun x hx => by rw [optField_mem idKey f.id x hx]; decide)]
    exact lookupField_none _ _ (pair_fst_ne _ _ _ (by decide))
  · rw [if_neg hm, if_neg hm,
      lookupField_skipl _ _ _
        (fun x hx => by
          rcases List.mem_append.mp hx with h | h
          · exact pair_fst_ne _ _ _ (by decide) x h
          · rw [optField_mem idKey f.id x h]; decide)]
    rfl

lemma lookup_frameFields_params (f : SingleFrame) :
    lookupField (frameFields f) paramsKey = f.params := by
  rw [frameFields,
    lookupField_skipr _ _ _
      (fun x hx => by rw [errField_mem f x hx]; decide),
    lookupField_skipr _ _ _
      (fun x hx => by rw [optField_mem resultKey f.result x hx]; decide)]
  cases hp : f.params with
  | none =>
    rw [optField, List.append_nil,
      lookupField_skipr _ _ _
        (fun x hx => by rw [methodField_mem f x hx]; decide),
      lookupField_skipr _ _ _
        (fun x hx => by rw [optField_mem idKey f.id x hx]; decide)]
    exact lookupField_none _ _ (pair_fst_ne _ _ _ (by decide))
  | some j =>
    rw [optField,
      lookupField_skipl _ _ _
        (fun x hx => by
          rcases List.mem_append.mp hx with h | h
          · rcases List.mem_append.mp h with h2 | h2
            · exact pair_fst_ne _ _ _ (by decide) x h2
            · rw [optField_mem idKey f.id x h2]; decide
          · rw [methodField_mem f x h]; decide)]
    rfl

lemma lookup_frameFields_result (f : SingleFrame) :
    lookupField (frameFields f) resultKey = f.result := by
  rw [frameFields,
    lookupField_skipr _ _ _
      (fun x hx => by rw [errField_mem f x hx]; decide)]
  cases hr : f.result with
  | none =>
    rw [optField, List.append_nil,
      lookupField_skipr _ _ _
        (fun x hx => by rw [optField_mem paramsKey f.params x hx]; decide),
      lookupField_skipr _ _ _
        (fun x hx => by rw [methodField_mem f x hx]; decide),
      lookupField_skipr _ _ _
        (fun x hx => by rw [optField_mem idKey f.id x hx]; decide)]
    exact lookupField_none _ _ (pair_fst_ne _ _ _ (by decide))
  | some j =>
    rw [optField,
      lookupField_skipl _ _ _
        (fun x hx => by
          rcases List.mem_append.mp hx with h | h
          · rcases List.mem_append.mp h with h2 | h2
            · rcases List.mem_append.mp h2 with h3 | h3
              · exact pair_fst_ne _ _ _ (by decide) x h3
              · rw [optField_mem idKey f.id x h3]; decide
            · rw [methodField_mem f x h2]; decide
          · rw [optField_mem paramsKey f.params x h]; decide)]
    rfl

lemma lookup_frameFields_error (f : SingleFrame) :
    lookupField (frameFields f) errorKey =
      (match f.error with
       | none => none
       | some e => some (marshalRpcError e)) := by
  rw [frameFields]
  cases he : f.error with
  | none =>
    rw [List.append_nil,
      lookupField_skipr _ _ _
        (fun x hx => by rw [optField_mem resultKey f.result x hx]; decide),
      lookupField_skipr _ _ _
        (fun x hx => by rw [optField_mem paramsKey f.params x hx]; decide),
      lookupField_skipr _ _ _
        (fun x hx => by rw [methodField_mem f x hx]; decide),
      lookupField_skipr _ _ _
        (fun x hx => by rw [optField_mem idKey f.id x hx]; decide)]
    exact lookupField_none _ _ (pair_fst_ne _ _ _ (by decide))
  | some e =>
    rw [lookupField_skipl _ _ _
      (fun x hx => by
        rcases List.mem_append.mp hx with h | h
        · rcases List.mem_append.mp h with h2 | h2
          · rcases List.mem_append.mp h2 with h3 | h3
            · rcases List.mem_append.mp h3 with h4 | h4
              · exact pair_fst_ne _ _ _ (by decide) x h4
              · rw [optField_mem idKey f.id x h4]; decide
            · rw [methodField_mem f x h3]; decide
          · rw [optField_mem paramsKey f.params x h2]; decide
        · rw [optField_mem resultKey f.result x h]; decide)]
    rfl

lemma frameOfJson_marshalFrame (f : SingleFrame) :
    frameOfJson (marshalFrame f) = some f := by
  have hjr : getStrField (frameFields f) jsonrpcKey = some f.jsonrpc := by
    rw [getStrField, lookup_frameFields_jsonrpc]
  have hme : getStrField (frameFields f) methodKey = some f.method := by
    rw [getStrField, lookup_frameFields_method]
    by_cases hm : f.method = []
    · rw [if_pos hm, hm]
    · rw [if_neg hm]
  have her : getErrField (frameFields f) = some f.error := by
    rw [getErrField, lookup_frameFields_error]
    cases he : f.error with
    | none => rfl
    | some e =>
      obtain ⟨c, m⟩ := e
      have hint : getIntField [(codeKey, Json.num (numLexOfInt c)),
          (messageKey, Json.str m)] codeKey = some c := by
        rw [show getIntField [(codeKey, Json.num (numLexOfInt c)),
            (messageKey, Json.str m)] codeKey = intOfNumLex (numLexOfInt c)
          from rfl, intOfNumLex_numLexOfInt]
      simp only [marshalRpcError]
      rw [hint]
      rfl
  rw [marshalFrame, frameOfJson, hjr, hme, her]
  show some ⟨f.jsonrpc, getRawField (frameFields f) idKey, f.method,
    getRawField (frameFields f) paramsKey,
    getRawField (frameFields f) resultKey, f.error⟩ = some f
  rw [getRawField, getRawField, getRawField, lookup_frameFields_id,
    lookup_frameFields_params, lookup_frameFields_result]

lemma trimLeftSpace_cons_space (c : Char) (t : List Char)
    (h : isSpaceGo c = true) : trimLeftSpace (c :: t) = trimLeftSpace t := by
  simp [trimLeftSpace, h]

lemma trimSpace_value (D : List Char) (hD : ∀ c ∈ D, isDigit c = true)
    (hne : D ≠ []) :
    trimSpace (' ' :: (D ++ ['\r', '\n'])) = D := by
  obtain ⟨d, u, hdu⟩ : ∃ d u, D.reverse = d :: u := by
    cases hrev : D.reverse with
    | nil => exact absurd (by simpa using congrArg List.reverse hrev) hne
    | cons a b => exact ⟨a, b, rfl⟩
  have hd : isDigit d = true :=
    hD d (List.mem_reverse.mp (by rw [hdu]; simp))
  have hrev : (' ' :: (D ++ ['\r', '\n'])).reverse =
      '\n' :: '\r' :: (D.reverse ++ [' ']) := by
    simp
  rw [trimSpace, hrev,
    trimLeftSpace_cons_space _ _ (by decide),
    trimLeftSpace_cons_space _ _ (by decide),
    hdu, List.cons_append,
    trimLeftSpace_not _ _ (isDigit_not_space d hd)]
  have hsw : ((d :: (u ++ [' '])).reverse) = ' ' :: (d :: u).reverse := by
    simp
  rw [hsw, trimLeftSpace_cons_space _ _ (by decide), ← hdu,
    List.reverse_reverse]
  obtain ⟨c, t, rfl⟩ : ∃ c t, D = c :: t := by
    cases D with
    | nil => exact absurd rfl hne
    | cons a b => exact ⟨a, b, rfl⟩
  exact trimLeftSpace_not _ _ (isDigit_not_space c (hD c (by simp)))

lemma headerLoopF_cl (fuel : Nat) (D tail : List Char)
    (hD : ∀ c ∈ D, isDigit c = true) (hne : D ≠ []) :
    headerLoopF (fuel + 2) [] false
      (['C','o','n','t','e','n','t','-','L','e','n','g','t','h',':',' '] ++
        D ++ ('\r' :: '\n' :: '\r' :: '\n' :: tail)) =
      .done [(contentLengthKey, D)] false tail := by
  have hnlD : '\n' ∉ D := fun hx => absurd (hD '\n' hx) (by decide)
  have hnotA : '\n' ∉ (['C','o','n','t','e','n','t','-','L','e','n','g','t',
      'h',':',' '] ++ D) ++ ['\r'] := by
    intro hx
    rcases List.mem_append.mp hx with hx | hx
    · rcases List.mem_append.mp hx with hx | hx
      · revert hx; decide
      · exact hnlD hx
    · revert hx; decide
  have hshape : (['C','o','n','t','e','n','t','-','L','e','n','g','t','h',
        ':',' '] ++ D) ++ ('\r' :: '\n' :: '\r' :: '\n' :: tail) =
      ((['C','o','n','t','e','n','t','-','L','e','n','g','t','h',':',' '] ++
        D) ++ ['\r']) ++ ('\n' :: ('\r' :: '\n' :: tail)) := by
    simp
  have hrl := readLine_append _ ('\r' :: '\n' :: tail) hnotA
  have h2 : fuel + 2 = (fuel + 1) + 1 := rfl
  rw [h2, hshape, headerLoopF, hrl]
  simp only [List.length_nil]
  rw [if_neg (by simp)]
  have hlineq : ['C','o','n','t','e','n','t','-','L','e','n','g','t','h',
      ':',' '] ++ D ++ ['\r'] ++ ['\n'] =
      ['C','o','n','t','e','n','t','-','L','e','n','g','t','h'] ++
        ':' :: (' ' :: (D ++ ['\r', '\n'])) := by
    simp
  have hcut := cutColon_append
    ['C','o','n','t','e','n','t','-','L','e','n','g','t','h']
    (' ' :: (D ++ ['\r', '\n'])) (by decide)
  rw [hlineq, hcut]
  simp only []
  rw [show trimSpace (toLower
      ['C','o','n','t','e','n','t','-','L','e','n','g','t','h']) =
    contentLengthKey from by decide]
  rw [trimSpace_value D hD hne]
  rw [show insertHeader [] contentLengthKey D = [(contentLengthKey, D)] from
    rfl]
  rw [headerLoopF]
  have hrl2 : readLine ('\r' :: '\n' :: tail) = some (['\r', '\n'], tail) :=
    readLine_append ['\r'] tail (by decide)
  rw [hrl2]
  simp only [List.length_cons]
  rw [if_pos ⟨by decide, by simp⟩]

lemma readFramesF_nil (g : Nat) : readFramesF (g + 1) [] = ([], .clean) := rfl

/-- C2: for every well-formed frame `f`, writing `f` with `WriteFrames`
and reading the bytes back with `ReadFrames` yields exactly `f` again
(and a clean end of stream): `decode(encode(f)) = f`. -/
theorem readFrames_writeFrame (f : SingleFrame) (h : WFFrame f) :
    readFrames (writeFrame (.single f)) =
      ([.frame (.single f)], .clean) := by
  have hw : writeFrame (.single f) =
      (['C','o','n','t','e','n','t','-','L','e','n','g','t','h',':',' '] ++
        natDigits (utf8Len (serVal (marshalFrame f)))) ++
        ('\r' :: '\n' :: '\r' :: '\n' :: serVal (marshalFrame f)) := by
    rw [writeFrame]
    simp [marshalGoFrame]
  have hDdig : ∀ c ∈ natDigits (utf8Len (serVal (marshalFrame f))),
      isDigit c = true := by
    rw [natDigits_eq]
    exact natDigitsW_digits _
  have hDne : natDigits (utf8Len (serVal (marshalFrame f))) ≠ [] := by
    rw [natDigits_eq]
    exact natDigitsW_ne_nil _
  rw [readFrames, hw]
  obtain ⟨k, hk⟩ : ∃ k,
      ((['C','o','n','t','e','n','t','-','L','e','n','g','t','h',':',' '] ++
        natDigits (utf8Len (serVal (marshalFrame f)))) ++
        ('\r' :: '\n' :: '\r' :: '\n' :: serVal (marshalFrame f))).length =
        k + 1 := by
    refine ⟨16 + (natDigits (utf8Len (serVal (marshalFrame f)))).length + 3 +
      (serVal (marshalFrame f)).length, ?_⟩
    simp only [List.length_append, List.length_cons, List.length_nil]
    omega
  rw [readFramesF, hk]
  rw [show k + 1 + 1 = k + 2 from rfl,
    headerLoopF_cl k _ _ hDdig hDne]
  dsimp only []
  rw [show lookupHeader [(contentLengthKey,
      natDigits (utf8Len (serVal (marshalFrame f))))] contentLengthKey =
    some (natDigits (utf8Len (serVal (marshalFrame f)))) from rfl]
  simp only [Option.getD_some]
  rw [trimSpace_digits _ hDdig hDne, atoi_natDigits]
  dsimp only []
  rw [if_neg (by simp), if_neg (by omega),
    show ((utf8Len (serVal (marshalFrame f)) : Int)).toNat =
      utf8Len (serVal (marshalFrame f)) from by simp,
    readFullBytes_exact]
  dsimp only []
  rw [decodeFrameBytes,
    if_neg (by rw [marshalFrame]; simp [serVal]),
    unmarshal_serVal _ (WF_marshalFrame f h)]
  simp only [Option.some_bind]
  rw [frameOfJson_marshalFrame]
  dsimp only [Option.map]
  obtain ⟨g, hg⟩ : ∃ g, k = g + 1 := by
    refine ⟨k - 1, ?_⟩
    simp only [List.length_append, List.length_cons, List.length_nil] at hk
    omega
  rw [hg, readFramesF_nil]

/-- Witness for C2 at a concrete frame carrying a method and an error. -/
theorem readFrames_writeFrame_witness :
    readFrames (writeFrame (.single ⟨['2','.','0'], none, ['m'], none, none,
      some ⟨-2, ['e']⟩⟩)) =
      ([.frame (.single ⟨['2','.','0'], none, ['m'], none, none,
        some ⟨-2, ['e']⟩⟩)], .clean) :=
  readFrames_writeFrame
    ⟨['2','.','0'], none, ['m'], none, none, some ⟨-2, ['e']⟩⟩
    (by refine ⟨?_, ?_, ?_⟩ <;> exact fun j hj => nomatch hj)

/-- C3 counterexample: an incoming empty batch produces no reply and no
handler invocation — the "batch not supported" error the claim promises
is suppressed by `respondError`'s nil-id guard, so the batch IS silently
dropped. -/
theorem handleFrame_batch_counterexample :
    handleFrame [] ['[', ']'] = ([], []) := rfl

/-- C3 amended: for every handler table and every payload beginning with
`[`, `handleFrame` sends no response and invokes no handler: the batch
branch builds an error reply with a nil correlation id, which
`respondError` silently discards. -/
theorem handleFrame_batch_dropped (handlers : List (List Char × HandlerSpec))
    (msg : List Char) (h : msg.head? = some '[') :
    handleFrame handlers msg = ([], []) := by
  rw [handleFrame, if_pos h]
  rfl

/-- Witness for the amended C3 statement on a nonempty batch payload. -/
theorem handleFrame_batch_dropped_witness :
    handleFrame [] ['[', 'x'] = ([], []) :=
  handleFrame_batch_dropped [] ['[', 'x'] rfl

/-- C6: resolving an empty schema reference returns the accept-anything
schema, erases the document's dependency edge, performs no fetch, and
leaves the open-document and remote-schema maps unchanged. -/
theorem loadSchema_empty (O : SchemaOracles) (st : ServerState)
    (docUrl : String) :
    loadSchema O st docUrl "" =
      (.anySchema,
        { st with schemasInUse := eraseKey st.schemasInUse docUrl }, []) := by
  rw [loadSchema, if_pos rfl]

lemma c4Step_budget (fr : Except Nat Nat) (sl : Bool) (st : C4Shared × C4Pc) :
    (c4Step fr sl st).1.fetchCount + c4Budget (c4Step fr sl st).2 ≤
      st.1.fetchCount + c4Budget st.2 := by
  obtain ⟨⟨cache, count⟩, pc⟩ := st
  cases pc with
  | checkCache =>
    cases cache with
    | none => dsimp [c4Step, c4Budget]; omega
    | some e =>
      obtain ⟨es, eerr⟩ := e
      cases es with
      | some s => dsimp [c4Step, c4Budget]; omega
      | none =>
        dsimp [c4Step]
        split <;> dsimp [c4Budget] <;> omega
  | doFetch => dsimp [c4Step, c4Budget]; omega
  | store r => dsimp [c4Step, c4Budget]; omega
  | finished res => dsimp [c4Step, c4Budget]; omega

lemma c4RunStep_budget (fr1 fr2 : Except Nat Nat)
    (st : C4Shared × C4Pc × C4Pc) (who : Bool) :
    (c4RunStep fr1 fr2 st who).1.fetchCount +
      c4Budget (c4RunStep fr1 fr2 st who).2.1 +
      c4Budget (c4RunStep fr1 fr2 st who).2.2 ≤
      st.1.fetchCount + c4Budget st.2.1 + c4Budget st.2.2 := by
  obtain ⟨sh, pc1, pc2⟩ := st
  cases who with
  | true =>
    have h := c4Step_budget fr1 true (sh, pc1)
    dsimp only [] at h
    dsimp [c4RunStep]
    omega
  | false =>
    have h := c4Step_budget fr2 true (sh, pc2)
    dsimp only [] at h
    dsimp [c4RunStep]
    omega

lemma c4Run_budget (fr1 fr2 : Except Nat Nat) :
    ∀ (sched : List Bool) (st : C4Shared × C4Pc × C4Pc),
      (c4Run fr1 fr2 sched st).1.fetchCount +
        c4Budget (c4Run fr1 fr2 sched st).2.1 +
        c4Budget (c4Run fr1 fr2 sched st).2.2 ≤
        st.1.fetchCount + c4Budget st.2.1 + c4Budget st.2.2 := by
  intro sched
  induction sched with
  | nil => intro st; simp [c4Run]
  | cons w ws ih =>
    intro st
    have h1 := c4RunStep_budget fr1 fr2 st w
    have h2 := ih (c4RunStep fr1 fr2 st w)
    have hrw : c4Run fr1 fr2 (w :: ws) st =
        c4Run fr1 fr2 ws (c4RunStep fr1 fr2 st w) := by
      rw [c4Run, List.foldl_cons, c4Run]
    rw [hrw]
    omega

lemma c4Step_inv (fr fr1 fr2 : Except Nat Nat) (sl : Bool)
    (st : C4Shared × C4Pc)
    (hc : st.1.cache = none ∨ st.1.cache = some (entryOf fr1) ∨
      st.1.cache = some (entryOf fr2))
    (hpc : ∀ r, st.2 = .store r → r = fr)
    (hfr : fr = fr1 ∨ fr = fr2) :
    ((c4Step fr sl st).1.cache = none ∨
      (c4Step fr sl st).1.cache = some (entryOf fr1) ∨
      (c4Step fr sl st).1.cache = some (entryOf fr2)) ∧
    (∀ r, (c4Step fr sl st).2 = .store r → r = fr) := by
  obtain ⟨⟨cache, count⟩, pc⟩ := st
  cases pc with
  | checkCache =>
    cases cache with
    | none =>
      refine ⟨hc, fun r hr => ?_⟩
      dsimp [c4Step] at hr
      exact nomatch hr
    | some e =>
      obtain ⟨es, eerr⟩ := e
      cases es with
      | some s =>
        refine ⟨hc, fun r hr => ?_⟩
        dsimp [c4Step] at hr
        exact nomatch hr
      | none =>
        refine ⟨?_, fun r hr => ?_⟩
        · dsimp [c4Step]
          split
          · exact hc
          · exact hc
        · dsimp [c4Step] at hr
          split at hr <;> exact nomatch hr
  | doFetch =>
    refine ⟨hc, fun r hr => ?_⟩
    dsimp [c4Step] at hr
    injection hr with h1
    exact h1.symm
  | store r0 =>
    have h0 : r0 = fr := hpc r0 rfl
    subst h0
    refine ⟨?_, fun r hr => ?_⟩
    · rcases hfr with rfl | rfl
      · exact Or.inr (Or.inl rfl)
      · exact Or.inr (Or.inr rfl)
    · dsimp [c4Step] at hr
      exact nomatch hr
  | finished res =>
    refine ⟨hc, fun r hr => ?_⟩
    dsimp [c4Step] at hr
    exact nomatch hr

lemma c4Run_inv (fr1 fr2 : Except Nat Nat) :
    ∀ (sched : List Bool) (st : C4Shared × C4Pc × C4Pc),
      (st.1.cache = none ∨ st.1.cache = some (entryOf fr1) ∨
        st.1.cache = some (entryOf fr2)) →
      (∀ r, st.2.1 = .store r → r = fr1) →
      (∀ r, st.2.2 = .store r → r = fr2) →
      ((c4Run fr1 fr2 sched st).1.cache = none ∨
        (c4Run fr1 fr2 sched st).1.cache = some (entryOf fr1) ∨
        (c4Run fr1 fr2 sched st).1.cache = some (entryOf fr2)) ∧
      (∀ r, (c4Run fr1 fr2 sched st).2.1 = .store r → r = fr1) ∧
      (∀ r, (c4Run fr1 fr2 sched st).2.2 = .store r → r = fr2) := by
  intro sched
  induction sched with
  | nil =>
    intro st h1 h2 h3
    exact ⟨h1, h2, h3⟩
  | cons w ws ih =>
    intro st h1 h2 h3
    have hrw : c4Run fr1 fr2 (w :: ws) st =
        c4Run fr1 fr2 ws (c4RunStep fr1 fr2 st w) := by
      rw [c4Run, List.foldl_cons, c4Run]
    rw [hrw]
    cases w with
    | true =>
      have h := c4Step_inv fr1 fr1 fr2 true (st.1, st.2.1) h1 h2
        (Or.inl rfl)
      exact ih _ h.1 h.2 h3
    | false =>
      have h := c4Step_inv fr2 fr1 fr2 true (st.1, st.2.2) h1 h3
        (Or.inr rfl)
      exact ih _ h.1 h2 h.2

/-- C4 counterexample: with both threads resolving the same uncached
URL, the interleaving check-check-fetch-fetch performs two network
fetches — the lock is released around the fetch, so the read-check and
the write are not one critical section. -/
theorem c4_duplicate_fetch :
    (c4Run (.ok 7) (.ok 7) [true, false, true, false, true, false]
      c4Init).1.fetchCount = 2 := rfl

/-- C4 amended: two concurrent resolutions of the same uncached remote
URL perform at most two fetches (at most one per thread) under every
schedule; the cache entry is always either absent or the stored outcome
of one of the two completed fetches (the last store wins); a fully
serialised schedule performs exactly one fetch when the first fetch
succeeds, but two when it fails, because the second document's fresh
dependency edge retries the cached failure. -/
theorem c4_fetch_bound (fr1 fr2 : Except Nat Nat) :
    (∀ sched : List Bool,
      (c4Run fr1 fr2 sched c4Init).1.fetchCount ≤ 2) ∧
    (∀ sched : List Bool,
      (c4Run fr1 fr2 sched c4Init).1.cache = none ∨
      (c4Run fr1 fr2 sched c4Init).1.cache = some (entryOf fr1) ∨
      (c4Run fr1 fr2 sched c4Init).1.cache = some (entryOf fr2)) ∧
    (∀ s : Nat,
      (c4Run (.ok s) fr2 [true, true, true, false, false, false]
        c4Init).1.fetchCount = 1) ∧
    (∀ e : Nat,
      (c4Run (.error e) fr2 [true, true, true, false, false, false]
        c4Init).1.fetchCount = 2) := by
  refine ⟨?_, ?_, ?_, ?_⟩
  · intro sched
    have h := c4Run_budget fr1 fr2 sched c4Init
    have hinit : c4Init.1.fetchCount + c4Budget c4Init.2.1 +
        c4Budget c4Init.2.2 = 2 := rfl
    omega
  · intro sched
    exact (c4Run_inv fr1 fr2 sched c4Init (Or.inl rfl)
      (fun r hr => nomatch hr) (fun r hr => nomatch hr)).1
  · intro s
    rfl
  · intro e
    rfl

/-- C8: an incoming frame whose method is registered as a notification
handler and which carries a correlation id gets an invalid-request error
reply, and the notification handler still runs on the decoded params. -/
theorem handleFrame_notification_with_id
    (handlers : List (List Char × HandlerSpec)) (msg : List Char)
    (recv : Recv) (hd : HandlerSpec) (pj i : Json)
    (hhead : msg.head? ≠ some '[')
    (hrecv : unmarshalRecv msg = some recv)
    (hlook : lookupHandler handlers recv.method = some hd)
    (hkind : hd.kind = .notification)
    (hparams : recv.params = some pj)
    (hdec : hd.decode pj = true)
    (hid : recv.id = some i) :
    handleFrame handlers msg =
      ([.failure i EInvalidRequest], [(recv.method, pj)]) := by
  rw [handleFrame, if_neg hhead, hrecv]
  dsimp only []
  rw [hlook]
  dsimp only []
  rw [hparams]
  dsimp only []
  rw [if_neg (by simp [hdec]), hkind]
  dsimp only []
  rw [hid]
  rfl

/-- Witness for C8: a notification handler for method `n` invoked by a
frame that also carries the id `0`. -/
theorem handleFrame_notification_with_id_witness :
    handleFrame [(['n'], ⟨.notification, fun _ => true, fun _ => .ok .null⟩)]
      ['\x7b','"','m','e','t','h','o','d','"',':','"','n','"',',','"','p',
        'a','r','a','m','s','"',':','n','u','l','l',',','"','i','d','"',
        ':','0','\x7d'] =
      ([.failure (.num ⟨false, ['0'], [], false, []⟩) EInvalidRequest],
        [(['n'], Json.null)]) :=
  handleFrame_notification_with_id _ _
    ⟨[], ['n'], some .null, none, some (.num ⟨false, ['0'], [], false, []⟩)⟩
    ⟨.notification, fun _ => true, fun _ => .ok .null⟩ .null
    (.num ⟨false, ['0'], [], false, []⟩)
    (by decide) rfl rfl rfl rfl rfl rfl

/-- C5: with a cached failed fetch for the resolved remote URL, the
resolver returns the cached failure without fetching when the document
already pointed at this URL, and refetches — storing the new outcome —
when the dependency edge just changed. -/
theorem loadSchema_failed_cache (O : SchemaOracles) (st : ServerState)
    (docUrl requested schemaUrl : String) (entry : HttpSchemaEntry)
    (hreq : requested ≠ "")
    (hres : O.resolveReference docUrl requested = some schemaUrl)
    (hopen : lookupAssoc st.openDocs schemaUrl = none)
    (hfile : O.urlScheme schemaUrl ≠ "file")
    (hscheme : O.urlScheme schemaUrl = "https" ∨
      O.urlScheme schemaUrl = "http")
    (hcache : lookupAssoc st.httpSchemas schemaUrl = some entry)
    (hfail : entry.schema = none) :
    ((lookupAssoc st.schemasInUse docUrl).getD "" = schemaUrl →
      loadSchema O st docUrl requested =
        (.failed entry.err,
          { st with schemasInUse :=
              insertAssoc st.schemasInUse docUrl schemaUrl }, [])) ∧
    ((lookupAssoc st.schemasInUse docUrl).getD "" ≠ schemaUrl →
      loadSchema O st docUrl requested =
        (resultOfParse (O.fetch schemaUrl),
          { st with
            schemasInUse := insertAssoc st.schemasInUse docUrl schemaUrl,
            httpSchemas := insertAssoc st.httpSchemas schemaUrl
              (entryOf (O.fetch schemaUrl)) }, [schemaUrl])) := by
  constructor
  · intro hedge
    rw [loadSchema, if_neg hreq, hres]
    dsimp only []
    rw [hopen]
    dsimp only []
    rw [if_neg hfile, if_pos hscheme, hcache]
    dsimp only []
    rw [hfail]
    dsimp only []
    rw [if_pos (fun hcon => hcon hedge)]
  · intro hedge
    rw [loadSchema, if_neg hreq, hres]
    dsimp only []
    rw [hopen]
    dsimp only []
    rw [if_neg hfile, if_pos hscheme, hcache]
    dsimp only []
    rw [hfail]
    dsimp only []
    rw [if_neg (fun hcon => hcon hedge)]
    cases O.fetch schemaUrl <;> rfl

/-- Witness for C5's refetch arm: document `D` newly points at the
cached-as-failed URL `S`; the fresh fetch fails with 5 and replaces the
recorded error 9. -/
theorem loadSchema_failed_cache_witness :
    loadSchema c5Oracles c5State "D" "r" =
      (.failed (some 5), ⟨[], [("D", "S")], [("S", ⟨none, some 5⟩)]⟩,
        ["S"]) :=
  (loadSchema_failed_cache c5Oracles c5State "D" "r" "S" ⟨none, some 9⟩
    (by decide) rfl rfl (by decide) (Or.inl rfl) rfl rfl).2 (by decide)

lemma readLine_none (s : List Char) (h : '\n' ∉ s) : readLine s = none := by
  induction s with
  | nil => rfl
  | cons c t ih =>
    rw [readLine, if_neg (fun hx => h (List.mem_cons.mpr (Or.inl hx.symm))),
      ih (fun hx => h (List.mem_cons.mpr (Or.inr hx)))]
    rfl

lemma readFullBytes_short : ∀ (p : List Char) (N : Nat), utf8Len p < N →
    readFullBytes p N = none := by
  intro p
  induction p with
  | nil =>
    intro N h
    obtain ⟨m, rfl⟩ : ∃ m, N = m + 1 := ⟨N - 1, by simp at h; omega⟩
    rfl
  | cons c t ih =>
    intro N h
    have hw := utf8RuneLen_pos c
    simp only [utf8Len_cons] at h
    obtain ⟨m, rfl⟩ : ∃ m, N = m + 1 := ⟨N - 1, by omega⟩
    rw [readFullBytes, ih (m + 1 - utf8RuneLen c) (by omega)]
    rfl

lemma headerLoopF_eof (fuel : Nat) (hs : List (List Char × List Char))
    (bad : Bool) (b : List Char) (hb : readLine b = none) (hne : hs ≠ []) :
    headerLoopF (fuel + 1) hs bad b = .eofUnexpected := by
  rw [headerLoopF, hb]
  dsimp only []
  rw [if_pos (by simpa [List.length_pos] using hne)]

lemma insertHeader_ne_nil (hs : List (List Char × List Char))
    (k v : List Char) : insertHeader hs k v ≠ [] := by
  rw [insertHeader]
  split
  · rename_i hfind
    intro hmap
    rw [List.map_eq_nil_iff] at hmap
    subst hmap
    simp at hfind
  · simp

lemma joinLines_length_ge (ls : List (List Char)) (t : List Char) :
    ls.length ≤ (joinLines ls t).length := by
  induction ls with
  | nil => simp
  | cons l ls' ih =>
    have hj : joinLines (l :: ls') t = l ++ '\n' :: joinLines ls' t := rfl
    rw [hj]
    simp only [List.length_cons, List.length_append]
    omega

lemma headerLoopF_lines (ls : List (List Char)) :
    ∀ (fuel : Nat) (hs : List (List Char × List Char)) (bad : Bool)
      (t : List Char),
      (∀ l ∈ ls, '\n' ∉ l) →
      (∀ l ∈ ls, trimSpace (l ++ ['\n']) ≠ []) →
      '\n' ∉ t → (hs ≠ [] ∨ ls ≠ []) →
      headerLoopF (fuel + ls.length + 1) hs bad (joinLines ls t) =
        .eofUnexpected := by
  induction ls with
  | nil =>
    intro fuel hs bad t h1 h2 ht h4
    rcases h4 with hne | hls
    · have harith : fuel + List.length ([] : List (List Char)) + 1 =
        fuel + 1 := by simp
      rw [harith, show joinLines [] t = t from rfl]
      exact headerLoopF_eof fuel hs bad t (readLine_none t ht) hne
    · exact absurd rfl hls
  | cons l ls' ih =>
    intro fuel hs bad t h1 h2 ht h4
    have harith : fuel + (l :: ls').length + 1 =
        (fuel + ls'.length + 1) + 1 := by
      simp only [List.length_cons]
      omega
    rw [harith,
      show joinLines (l :: ls') t = l ++ '\n' :: joinLines ls' t from rfl,
      headerLoopF, readLine_append l _ (h1 l (List.mem_cons_self l ls'))]
    dsimp only []
    rw [if_neg (fun hcon => (h2 l (List.mem_cons_self l ls')) hcon.1)]
    cases hcut : cutColon (l ++ ['\n']) with
    | none =>
      dsimp only []
      exact ih fuel _ true _ (fun x hx => h1 x (List.mem_cons_of_mem l hx))
        (fun x hx => h2 x (List.mem_cons_of_mem l hx)) ht
        (Or.inl (insertHeader_ne_nil _ _ _))
    | some kv =>
      dsimp only []
      exact ih fuel _ bad _ (fun x hx => h1 x (List.mem_cons_of_mem l hx))
        (fun x hx => h2 x (List.mem_cons_of_mem l hx)) ht
        (Or.inl (insertHeader_ne_nil _ _ _))

lemma err_singleton_last (x : FrameEvent) (pre suf : List FrameEvent)
    (e : ReadErr) (h : [x] = pre ++ .err e :: suf) : suf = [] := by
  have hl := congrArg List.length h
  simp only [List.length_append, List.length_cons, List.length_nil] at hl
  have : suf.length = 0 := by omega
  exact List.length_eq_zero.mp this

/-- C9 counterexample: the stream ends inside the first header line
(`Content-Le` with no newline ever arriving), yet the sequence ends
silently with no unexpected-EOF error: the header loop treats EOF with
no completed header line as a clean frame boundary even mid-line. -/
theorem readFrames_truncated_silent :
    readFrames ['C', 'o', 'n', 't', 'e', 'n', 't', '-', 'L', 'e'] =
      ([], .clean) := rfl

/-- C9 amended: EOF before any complete header line ends the sequence
silently; EOF after one or more complete non-blank header lines but
before the blank line yields unexpected-EOF; a header block that
completes with a valid non-negative Content-Length larger than the
remaining bytes yields unexpected-EOF; and any yielded error is the
last event of the sequence. -/
theorem readFrames_eof_behavior :
    (∀ s : List Char, '\n' ∉ s → readFrames s = ([], ReadEnd.clean)) ∧
    (∀ (ls : List (List Char)) (t : List Char), ls ≠ [] →
      (∀ l ∈ ls, '\n' ∉ l) →
      (∀ l ∈ ls, trimSpace (l ++ ['\n']) ≠ []) →
      '\n' ∉ t →
      readFrames (joinLines ls t) =
        ([.err .unexpectedEOF], ReadEnd.clean)) ∧
    (∀ (s : List Char) (hs : List (List Char × List Char))
      (rest : List Char) (n : Int),
      headerLoopF (s.length + 1) [] false s = .done hs false rest →
      atoi (trimSpace ((lookupHeader hs contentLengthKey).getD [])) =
        some n →
      0 ≤ n → utf8Len rest < n.toNat →
      readFrames s = ([.err .unexpectedEOF], ReadEnd.clean)) ∧
    (∀ (fuel : Nat) (s : List Char) (pre : List FrameEvent) (e : ReadErr)
      (suf : List FrameEvent),
      (readFramesF fuel s).1 = pre ++ .err e :: suf → suf = []) := by
  refine ⟨?_, ?_, ?_, ?_⟩
  · intro s hs
    rw [readFrames, readFramesF,
      show headerLoopF (s.length + 1) [] false s = .eofClean from by
        rw [headerLoopF, readLine_none s hs]
        rfl]
  · intro ls t hne h1 h2 ht
    have hlen := joinLines_length_ge ls t
    obtain ⟨f0, hf0⟩ : ∃ f0,
        (joinLines ls t).length + 1 = f0 + ls.length + 1 :=
      ⟨(joinLines ls t).length - ls.length, by omega⟩
    rw [readFrames, readFramesF, hf0,
      headerLoopF_lines ls f0 [] false t h1 h2 ht (Or.inr hne)]
  · intro s hs rest n hh ha hn hshort
    rw [readFrames, readFramesF, hh]
    dsimp only []
    rw [ha]
    dsimp only []
    rw [if_neg (by simp), if_neg (by omega),
      readFullBytes_short rest n.toNat hshort]
  · intro fuel
    induction fuel with
    | zero =>
      intro s pre e suf h
      rw [readFramesF] at h
      exact absurd h (by simp)
    | succ f ih =>
      intro s pre e suf h
      rw [readFramesF] at h
      cases hh : headerLoopF (s.length + 1) [] false s with
      | eofClean =>
        rw [hh] at h
        exact absurd h (by simp)
      | eofUnexpected =>
        rw [hh] at h
        exact err_singleton_last _ _ _ _ h
      | done hs bad rest =>
        rw [hh] at h
        dsimp only [] at h
        cases ha : atoi (trimSpace ((lookupHeader hs
            contentLengthKey).getD [])) with
        | none =>
          rw [ha] at h
          exact err_singleton_last _ _ _ _ h
        | some n =>
          rw [ha] at h
          dsimp only [] at h
          cases bad with
          | true => exact absurd h (by simp)
          | false =>
            rw [if_neg (by simp)] at h
            by_cases hneg : n < 0
            · rw [if_pos hneg] at h
              exact absurd h (by simp)
            · rw [if_neg hneg] at h
              cases hr : readFullBytes rest n.toNat with
              | none =>
                rw [hr] at h
                exact err_singleton_last _ _ _ _ h
              | some pr =>
                obtain ⟨buf, rest2⟩ := pr
                rw [hr] at h
                dsimp only [] at h
                cases hd : decodeFrameBytes buf with
                | none =>
                  rw [hd] at h
                  exact err_singleton_last _ _ _ _ h
                | some fr =>
                  rw [hd] at h
                  dsimp only [] at h
                  cases pre with
                  | nil => exact absurd h (by simp)
                  | cons q pre' =>
                    rw [List.cons_append] at h
                    injection h with h1 h2
                    exact ih rest2 pre' e suf h2

/-- Witness for C9's completed-header-lines arm: two complete header
lines then a partial third line at EOF yield exactly one unexpected-EOF
error. -/
theorem readFrames_eof_behavior_witness :
    readFrames (joinLines [['X'], ['Y']] ['Z']) =
      ([.err .unexpectedEOF], ReadEnd.clean) :=
  readFrames_eof_behavior.2.1 [['X'], ['Y']] ['Z'] (by decide) (by decide)
    (by decide) (by decide)
end ConlLsp
